import Mathlib

/-!
Verification of the gradient-boosted-tree training core of ml-cpp.

This file gives a shallow embedding, in Lean 4, of the parts of the
repository that the claims C1 to C10 are about:

* the extra-column layout of `CBoostedTreeUtils.h` (widths, offsets, the
  derivative read spans and the example-weight sentinel);
* the generic reduction driver `doReduce` and its caller `columnQuantiles`
  of `CDataFrameUtils.cc`;
* the arena-indexed tree of `CBoostedTree.h`, the gradient propagation
  `propagateLossGradients` and the selection-probability computation
  `retrainTreeSelectionProbabilities` of `CBoostedTreeUtils.cc`;
* the stratified cross-validation fold construction
  `stratifiedCrossValidationRowMasks` of `CDataFrameUtils.cc`.

Modelling conventions.  C++ `double` values are modelled as `ℚ` (exact
arithmetic; every quantity the claims mention is produced by finitely many
field operations, `std::floor`/`std::ceil` and comparisons).  `std::size_t`
is modelled as `ℕ`, with the out-of-range sentinel kept as the explicit
constant `2 ^ 64 - 1`.  Packed bit-vector row masks are modelled as
`Finset ℕ` (the set of row indices whose bit is set); the C++ operators
`^=` and `|=` become `symmDiff` and `∪`, and `manhattan()` becomes `card`.
The pseudo-random stratified sampler (reservoir sampling driven by an
XorOShiro128+ generator that the function receives as an argument) is kept
as an explicit function parameter `smp`; the lemmas assume only the two
properties every run of the sampler has: it returns a subset of the mask it
samples from, of size `min requested (mask.card)`.  Parallel `readRows`
reductions are modelled at thread count one, which the concurrency contract
of the code requires to agree with every parallel execution.  Dense vectors
of loss-gradient components are modelled as `List ℚ`.
-/

namespace MlCpp

/-! ## Extra-column layout (`CBoostedTreeUtils.h`) -/

/-- The extra-column tags, `EExtraColumnTag` of `CBoostedTreeUtils.h`. -/
def E_Prediction : ℕ := 0

/-- Tag of the gradient region. -/
def E_Gradient : ℕ := 1

/-- Tag of the curvature region. -/
def E_Curvature : ℕ := 2

/-- Tag of the example-weight column. -/
def E_Weight : ℕ := 3

/-- `UNIT_ROW_WEIGHT_COLUMN`, i.e. `std::numeric_limits<std::size_t>::max()`:
the out-of-range column index used as the sentinel meaning "every row has
weight one". -/
def UNIT_ROW_WEIGHT_COLUMN : ℕ := 2 ^ 64 - 1

/-- `lossHessianUpperTriangleSize`: the size of the upper triangle of the
loss Hessian for `numberLossParameters` parameters. -/
def lossHessianUpperTriangleSize (numberLossParameters : ℕ) : ℕ :=
  numberLossParameters * (numberLossParameters + 1) / 2

/-- `core::CAlignment::EType`, as used by the layout. -/
inductive EAlignment where
  | E_Unaligned : EAlignment
  | E_Aligned16 : EAlignment
deriving DecidableEq

/-- `extraColumnsForTrain`: the per-tag (width, alignment) pairs reserved for
training, in tag order prediction, gradient, curvature. -/
def extraColumnsForTrain (numberLossParameters : ℕ) : List (ℕ × EAlignment) :=
  [(numberLossParameters, EAlignment.E_Unaligned),
   (numberLossParameters, EAlignment.E_Aligned16),
   (numberLossParameters * numberLossParameters, EAlignment.E_Unaligned)]

/-- The widths of the training extra-column regions, in tag order. -/
def trainWidths (numberLossParameters : ℕ) : List ℕ :=
  (extraColumnsForTrain numberLossParameters).map Prod.fst

/-- Modelled from the spec: the data frame reserves the extra columns
contiguously, in the order of the list returned by `extraColumnsForTrain`
(the offset assignment itself lives in `core::CDataFrame`, which is not part
of the sources here; §3 of the spec states that each tag maps to a starting
offset and width and that the ranges are contiguous).  Offsets are relative
to the first extra column. -/
def trainOffsets (numberLossParameters : ℕ) : List ℕ :=
  (trainWidths numberLossParameters).scanl (· + ·) 0

/-- `readLossDerivatives`: the (start offset, length) of the memory-mapped
vector of all loss derivatives, starting at the gradient region and of
length `numberLossParameters + lossHessianUpperTriangleSize`. -/
def readLossDerivatives (numberLossParameters : ℕ) : ℕ × ℕ :=
  ((trainOffsets numberLossParameters).getD E_Gradient 0,
   numberLossParameters + lossHessianUpperTriangleSize numberLossParameters)

/-- `readLossCurvature`: the (start offset, length) of the memory-mapped
flat Hessian, starting at the curvature region and of length
`lossHessianUpperTriangleSize`. -/
def readLossCurvature (numberLossParameters : ℕ) : ℕ × ℕ :=
  ((trainOffsets numberLossParameters).getD E_Curvature 0,
   lossHessianUpperTriangleSize numberLossParameters)

/-- `readExampleWeight` of `CBoostedTreeUtils.h`: return 1.0 when the weight
column is the `UNIT_ROW_WEIGHT_COLUMN` sentinel and the value stored in the
weight column otherwise.  A row is the list of its cell values. -/
def readExampleWeight (row : List ℚ) (extraColumns : List ℕ) : ℚ :=
  if extraColumns.getD E_Weight 0 = UNIT_ROW_WEIGHT_COLUMN then 1
  else row.getD (extraColumns.getD E_Weight 0) 0

/-! ## The reduction driver (`CDataFrameUtils.cc`) -/

/-- `doReduce` of `CDataFrameUtils.cc`: combine the per-worker states of a
`readRows` call into `reduction`, using `reduceFirst` for worker 0 and
`reduce` for the remaining workers in index order.  The `Bool` of
`readResults` is the success flag of the read; on failure the reduction
value is returned unmodified together with `false`. -/
def doReduce {σ ρ : Type} (readResults : List σ × Bool)
    (reduceFirst : σ → ρ → ρ) (reduce : σ → ρ → ρ) (reduction : ρ) : Bool × ρ :=
  if readResults.2 = false then (false, reduction)
  else
    match readResults.1 with
    | [] => (true, reduction)
    | s0 :: rest => (true, rest.foldl (fun acc s => reduce s acc) (reduceFirst s0 reduction))

/-- `columnQuantiles` of `CDataFrameUtils.cc`, abstracted over the sketch
type: the per-worker sketch states `readResults` (the outcome of the
`readRows` call, whose per-row accumulation is internal to the external
quantile-sketch collaborator) are reduced into an initially empty sketch
vector; if the read failed the function logs and returns the untouched
(empty) vector together with `false`. -/
def columnQuantiles {σ Sketch : Type} (readResults : List σ × Bool)
    (copyQuantiles : σ → List Sketch → List Sketch)
    (reduceQuantiles : σ → List Sketch → List Sketch) : List Sketch × Bool :=
  let r := doReduce readResults copyQuantiles reduceQuantiles []
  if r.1 = false then ([], false) else (r.2, true)

/-! ## The arena-indexed tree (`CBoostedTree.h`) -/

/-- `rootIndex` of `CBoostedTreeUtils.h`: the index of the root node in a
canonical tree node vector. -/
def rootIndex : ℕ := 0

/-- A node of a regression tree, `CBoostedTreeNode` of `CBoostedTree.h`.
Children are indices into the owning tree's node vector; a node is a leaf
iff it has no left child.  The bookkeeping fields (gain, gain variance,
curvature, sample count) and the node value are not consulted by any of the
operations the claims are about and are omitted. -/
structure CBoostedTreeNode where
  splitFeature : ℕ
  splitValue : ℚ
  assignMissingToLeft : Bool
  leftChild : Option ℕ
  rightChild : Option ℕ
deriving DecidableEq

/-- `CBoostedTreeNode::isLeaf`: a node is a leaf iff `m_LeftChild` is empty. -/
def CBoostedTreeNode.isLeaf (node : CBoostedTreeNode) : Bool :=
  node.leftChild.isNone

/-- `CBoostedTreeNode::leftChildIndex`, i.e. `*m_LeftChild`; only meaningful
on internal nodes. -/
def CBoostedTreeNode.leftChildIndex (node : CBoostedTreeNode) : ℕ :=
  node.leftChild.getD 0

/-- `CBoostedTreeNode::rightChildIndex`, i.e. `*m_RightChild`; only
meaningful on internal nodes. -/
def CBoostedTreeNode.rightChildIndex (node : CBoostedTreeNode) : ℕ :=
  node.rightChild.getD 0

/-- A tree is its vector of nodes, root at index `rootIndex`. -/
abbrev Tree := List CBoostedTreeNode

/-- Whether the node at index `i` of `tree` is a leaf (out-of-range indices
count as leaves, matching that they hold no children to recurse into). -/
def isLeafAt (tree : Tree) (i : ℕ) : Bool :=
  match tree[i]? with
  | none => true
  | some nd => nd.isLeaf

/-- The append-only well-formedness invariant of trees built by
`CBoostedTreeNode::split` (spec §4.3/§8: the child indices returned by a
split are strictly greater than every previously assigned index): every
internal node has both children, with indices strictly greater than its own
and inside the node vector. -/
def treeWF (tree : Tree) : Bool :=
  (List.range tree.length).all fun i =>
    match tree[i]? with
    | none => true
    | some nd =>
      match nd.leftChild, nd.rightChild with
      | none, _ => true
      | some _, none => false
      | some l, some r =>
        decide (i < l) && decide (i < r) &&
        decide (l < tree.length) && decide (r < tree.length)

/-- An encoded data-frame row, as consumed by the split predicate: the list
of its encoded feature values, `none` marking a missing value. -/
abbrev EncodedRow := List (Option ℚ)

/-- Modelled from the spec: `CBoostedTreeNode::assignToLeft` (its body lives
in `CBoostedTree.cc`, which is not among the sources here).  Spec §4.3:
intervals are open above, so the left child receives values strictly less
than the threshold, and a separate flag, independent of the threshold,
routes missing values left or right. -/
def CBoostedTreeNode.assignToLeft (node : CBoostedTreeNode) (row : EncodedRow) : Bool :=
  match row.getD node.splitFeature none with
  | none => node.assignMissingToLeft
  | some x => decide (x < node.splitValue)

/-- Modelled from the spec: `CBoostedTreeNode::leafIndex` (general-purpose
variant, re-evaluating the split predicate; its body lives in
`CBoostedTree.cc`, which is not among the sources here).  It walks from
`index` down to the leaf the row is assigned to.  The C++ recursion
terminates because trees are finite and acyclic; here the recursion is fed
the structural fuel `tree.length`, which the append-only invariant makes
sufficient. -/
def leafIndex (fuel : ℕ) (tree : Tree) (row : EncodedRow) (index : ℕ) : ℕ :=
  match fuel with
  | 0 => index
  | fuel + 1 =>
    match tree[index]? with
    | none => index
    | some node =>
      if node.isLeaf then index
      else
        leafIndex fuel tree row
          (if node.assignToLeft row then node.leftChildIndex else node.rightChildIndex)

/-- Component-wise sum of two gradient vectors; a vector shorter than the
other is padded with zeros (the C++ vectors all have the fixed length
`numberLossParameters`, so the padding never happens there). -/
def vadd : List ℚ → List ℚ → List ℚ
  | [], ys => ys
  | x :: xs, [] => x :: xs
  | x :: xs, y :: ys => (x + y) :: vadd xs ys

/-- Sum of a list of gradient vectors. -/
def vsum (vs : List (List ℚ)) : List ℚ :=
  vs.foldr vadd []

/-- `propagateLossGradients` of `CBoostedTreeUtils.cc`: a post-order depth
first traversal; at each internal node, after both children have been
propagated, the child slots are added onto the node's slot.  `fuel` is the
structural recursion fuel, `tree.length` at every call site. -/
def propagateLossGradients (fuel node : ℕ) (tree : Tree)
    (lossGradients : List (List ℚ)) : List (List ℚ) :=
  match fuel with
  | 0 => lossGradients
  | fuel + 1 =>
    match tree[node]? with
    | none => lossGradients
    | some nd =>
      if nd.isLeaf then lossGradients
      else
        let g1 := propagateLossGradients fuel nd.leftChildIndex tree lossGradients
        let g2 := propagateLossGradients fuel nd.rightChildIndex tree g1
        g2.set node
          (vadd (vadd (g2.getD node []) (g2.getD nd.leftChildIndex []))
            (g2.getD nd.rightChildIndex []))

/-- The post-order traversal order of the subtree rooted at `node`: the
sequence of node indices in the order `propagateLossGradients` finishes
visiting them (left subtree, right subtree, node). -/
def postorder (fuel node : ℕ) (tree : Tree) : List ℕ :=
  match fuel with
  | 0 => []
  | fuel + 1 =>
    match tree[node]? with
    | none => []
    | some nd =>
      if nd.isLeaf then [node]
      else
        postorder fuel nd.leftChildIndex tree ++
          postorder fuel nd.rightChildIndex tree ++ [node]

/-- The leaves of the subtree rooted at `node`. -/
def leavesUnder (fuel node : ℕ) (tree : Tree) : List ℕ :=
  (postorder fuel node tree).filter (isLeafAt tree)

/-! ## Retrain tree-selection probabilities (`CBoostedTreeUtils.cc`) -/

/-- One training row as consumed by `retrainTreeSelectionProbabilities`:
its encoded feature values and the loss gradient the pluggable `CLoss`
computes for it (`loss.gradient` applied to the row's encoded values,
stored prediction, actual target and example weight; the loss function is
an external strategy, spec §6, so its per-row output is a parameter of the
embedding). -/
structure RetrainRow where
  features : EncodedRow
  gradient : List ℚ

/-- The rows a masked `readRows` visits, in ascending row order. -/
def maskedRows {α : Type} (rows : List α) (mask : List Bool) : List α :=
  (rows.zip mask).filterMap fun p => if p.2 then some p.1 else none

/-- The read phase of `retrainTreeSelectionProbabilities` (the
`makeComputeTotalLossGradient` lambda, reduced over all masked rows): for
each row and each tree, the row's loss gradient is written component-wise
into the slot of the leaf the row is assigned to.  Note the writer of the
source assigns (`=`) the component rather than accumulating (`+=`) it. -/
def computeLeafLossGradients (numberLossParameters : ℕ) (rows : List RetrainRow)
    (mask : List Bool) (forest : List Tree) : List (List (List ℚ)) :=
  let zero := forest.map fun tree =>
    List.replicate tree.length (List.replicate numberLossParameters 0)
  (maskedRows rows mask).foldl
    (fun acc row =>
      (List.range forest.length).foldl
        (fun acc2 i =>
          let tree := forest.getD i []
          let leaf := leafIndex tree.length tree row.features rootIndex
          acc2.set i
            ((acc2.getD i []).set leaf
              ((List.range numberLossParameters).map fun j => row.gradient.getD j 0)))
        acc)
    zero

/-- `lpNorm<1>`: the L1 norm of a gradient vector. -/
def lpNorm1 (v : List ℚ) : ℚ :=
  (v.map fun x => |x|).sum

/-- The unnormalized per-tree scores of `retrainTreeSelectionProbabilities`:
the result vector starts at zero; for every tree except the first, the
L1 norms of the propagated loss gradients of all its non-root nodes are
summed. -/
def retrainScores (numberLossParameters : ℕ) (rows : List RetrainRow)
    (mask : List Bool) (forest : List Tree) : List ℚ :=
  let gradients := computeLeafLossGradients numberLossParameters rows mask forest
  let propagated := (List.range forest.length).map fun i =>
    propagateLossGradients (forest.getD i []).length rootIndex (forest.getD i [])
      (gradients.getD i [])
  (List.range forest.length).map fun i =>
    if i = 0 then 0
    else
      (((List.range (forest.getD i []).length).drop 1).map fun j =>
        lpNorm1 ((propagated.getD i []).getD j [])).sum

/-- The normalization constant `Z` of `retrainTreeSelectionProbabilities`:
the sum of the scores of the trees with index at least one. -/
def retrainZ (numberLossParameters : ℕ) (rows : List RetrainRow)
    (mask : List Bool) (forest : List Tree) : ℚ :=
  ((retrainScores numberLossParameters rows mask forest).drop 1).sum

/-- `retrainTreeSelectionProbabilities` of `CBoostedTreeUtils.cc`: on a
forest of fewer than two trees return the empty vector; otherwise compute
the per-tree scores from the propagated leaf loss gradients and divide
every entry by the normalization constant. -/
def retrainTreeSelectionProbabilities (numberLossParameters : ℕ)
    (rows : List RetrainRow) (mask : List Bool) (forest : List Tree) : List ℚ :=
  if forest.length < 2 then []
  else
    (retrainScores numberLossParameters rows mask forest).map
      (· / retrainZ numberLossParameters rows mask forest)

/-- IEEE division on finite operands, with the non-finite outcomes made
visible: dividing a finite double by zero never yields a finite number
(`0.0 / 0.0` is NaN, `x / 0.0` is `±inf` for `x ≠ 0`), so the result is
`none` exactly when the divisor is zero, and otherwise the finite quotient.
The plain `ℚ` division used above instead follows the rational convention
`x / 0 = 0`, which collapses these non-finite cases to `0`. -/
def checkedDiv (a b : ℚ) : Option ℚ :=
  if b = 0 then none else some (a / b)

/-- `retrainTreeSelectionProbabilities` again, but with the normalization
division modelled by `checkedDiv`, so that an entry is `some p` exactly when
the C++ computes the finite probability `p` and `none` when it computes a
NaN or infinity (which happens to every entry when the normalization
constant `Z` is zero, e.g. on an empty training mask). -/
def retrainTreeSelectionProbabilitiesChecked (numberLossParameters : ℕ)
    (rows : List RetrainRow) (mask : List Bool) (forest : List Tree) : List (Option ℚ) :=
  if forest.length < 2 then []
  else
    (retrainScores numberLossParameters rows mask forest).map
      (fun s => checkedDiv s (retrainZ numberLossParameters rows mask forest))

/-! ## Stratified cross-validation row masks (`CDataFrameUtils.cc`) -/

/-- `complementRowMasks` of `CDataFrameUtils.cc`: the test mask of each fold
is the exclusive-or of the fold's mask with the mask of all rows. -/
def complementRowMasks (foldRowMasks : List (Finset ℕ)) (allRowsMask : Finset ℕ) :
    List (Finset ℕ) :=
  foldRowMasks.map fun mask => symmDiff allRowsMask mask

/-- `sampleFraction` of `stratifiedCrossValidationRowMasks`: the smaller of
the train and test fractions, which is what each fold samples. -/
def cvSampleFraction (trainFractionPerFold : ℚ) : ℚ :=
  min trainFractionPerFold (1 - trainFractionPerFold)

/-- `excessSampleFraction` of `stratifiedCrossValidationRowMasks`: the part
of the sample fraction exceeding one fold's share `1 / numberFolds`. -/
def cvExcessSampleFraction (trainFractionPerFold : ℚ) (numberFolds : ℕ) : ℚ :=
  max (cvSampleFraction trainFractionPerFold - 1 / (numberFolds : ℚ)) 0

/-- `excessSampleSize` of `stratifiedCrossValidationRowMasks`:
`ceil(excessSampleFraction * numberTrainingRows)`. -/
def cvExcessSampleSize (trainFractionPerFold : ℚ) (numberFolds numberTrainingRows : ℕ) : ℕ :=
  (⌈cvExcessSampleFraction trainFractionPerFold numberFolds * (numberTrainingRows : ℚ)⌉).toNat

/-- `sampleSize` of `stratifiedCrossValidationRowMasks`:
`max((1 + 1e-8) * (sampleFraction - excessSampleFraction) * numberTrainingRows, 1)`
truncated to an integer. -/
def cvSampleSize (trainFractionPerFold : ℚ) (numberFolds numberTrainingRows : ℕ) : ℕ :=
  (⌊max ((1 + 1 / 100000000) *
      (cvSampleFraction trainFractionPerFold -
        cvExcessSampleFraction trainFractionPerFold numberFolds) *
      (numberTrainingRows : ℚ)) 1⌋).toNat

/-- The state one fold of the `stratifiedCrossValidationRowMasks` loop
produces: the candidate mask the fold started from, the base sample drawn
from it (or the whole remainder, when no more than a fold's share was
left), and the fold's final test mask (the base sample together with any
excess sample). -/
structure CvFold where
  remaining : Finset ℕ
  base : Finset ℕ
  test : Finset ℕ
deriving DecidableEq

/-- The fold loop of `stratifiedCrossValidationRowMasks`.  `smp` is the
stratified sampler (`sample` over a `makeSampler` sampler in the source:
the reservoir-sampling outcome, a function of the requested size and of the
mask sampled from); `s` is `sampleSize`, `e` is `excessSampleSize`, `all`
is the mask of all training rows.  Each fold takes the whole remaining
candidate mask when it has no more than `s` rows and otherwise samples `s`
rows from it and removes them (`^=`) from the candidate mask; when the
excess sampler exists (`e > 0`) an excess sample drawn from all rows except
the fold's own test rows is or-ed into the fold's test mask. -/
def cvFoldLoop (smp : ℕ → Finset ℕ → Finset ℕ) (s e : ℕ) (all : Finset ℕ) :
    ℕ → Finset ℕ → List CvFold × Finset ℕ
  | 0, cand => ([], cand)
  | numberFolds + 1, cand =>
    let base := if cand.card ≤ s then cand else smp s cand
    let cand2 := if cand.card ≤ s then (∅ : Finset ℕ) else symmDiff cand (smp s cand)
    let test := if 0 < e then base ∪ smp e (symmDiff all base) else base
    let rest := cvFoldLoop smp s e all numberFolds cand2
    (⟨cand, base, test⟩ :: rest.1, rest.2)

/-- The union of a list of row masks. -/
def unionList (masks : List (Finset ℕ)) : Finset ℕ :=
  masks.foldr (· ∪ ·) ∅

/-- `stratifiedCrossValidationRowMasks` of `CDataFrameUtils.cc` (the fold
construction; the per-fold stratified samplers are abstracted into `smp`,
and the returned per-category frequencies are omitted).  Returns `none` on
the fatal insufficient-training-data path and otherwise the pair of the
training and testing mask lists: the loop collects the per-fold test masks,
the training masks are their complements, and the two lists are swapped
when the train fraction per fold is below one half. -/
def stratifiedCrossValidationRowMasks (smp : ℕ → Finset ℕ → Finset ℕ)
    (numberFolds : ℕ) (trainFractionPerFold : ℚ) (allTrainingRowMask : Finset ℕ) :
    Option (List (Finset ℕ) × List (Finset ℕ)) :=
  let numberTrainingRows := allTrainingRowMask.card
  if numberTrainingRows < numberFolds then none
  else
    let s := cvSampleSize trainFractionPerFold numberFolds numberTrainingRows
    let e := cvExcessSampleSize trainFractionPerFold numberFolds numberTrainingRows
    let testingRowMasks :=
      ((cvFoldLoop smp s e allTrainingRowMask numberFolds allTrainingRowMask).1).map
        CvFold.test
    let trainingRowMasks := complementRowMasks testingRowMasks allTrainingRowMask
    if trainFractionPerFold < 1 / 2 then some (testingRowMasks, trainingRowMasks)
    else some (trainingRowMasks, testingRowMasks)

/-- The deterministic sampler used to witness the parametrized theorems: it
takes the `k` smallest rows of the mask (any run of the reservoir sampler
satisfies the same two contract properties, `firstK_subset` and
`firstK_card`, that the theorems assume). -/
def firstK : ℕ → Finset ℕ → Finset ℕ
  | 0, _ => ∅
  | k + 1, m =>
    if h : 0 < m.card then
      insert (m.min' (Finset.card_pos.1 h))
        (firstK k (m.erase (m.min' (Finset.card_pos.1 h))))
    else ∅

/-- A single leaf node, used by concrete instantiations. -/
def leafNode : CBoostedTreeNode := ⟨0, 0, false, none, none⟩

/-- A three-node tree (a root whose split routes missing values left, and
two leaves), used by concrete instantiations. -/
def witTree : Tree := [⟨0, 0, true, some 1, some 2⟩, leafNode, leafNode]

/-! ## Helper lemmas -/

theorem lossHessianUpperTriangleSize_le (P : ℕ) (hP : 1 ≤ P) :
    lossHessianUpperTriangleSize P ≤ P * P := by
  rw [lossHessianUpperTriangleSize]
  have h1 : P * (P + 1) ≤ 2 * (P * P) := by nlinarith
  calc P * (P + 1) / 2 ≤ 2 * (P * P) / 2 := Nat.div_le_div_right h1
    _ = P * P := Nat.mul_div_cancel_left _ (by norm_num)

theorem one_le_lossHessianUpperTriangleSize (P : ℕ) (hP : 1 ≤ P) :
    1 ≤ lossHessianUpperTriangleSize P := by
  rw [lossHessianUpperTriangleSize]
  rw [Nat.le_div_iff_mul_le (by norm_num)]
  nlinarith

/-! ## C1: extra-column widths -/

/-- C1, counterexample.  The claim states that the gradient region reserves
width `P + P(P+1)/2` and the curvature region width `P(P+1)/2`.  Already at
`P = 1` the widths `extraColumnsForTrain` actually reserves are `1` for the
gradient region (not `1 + 1 = 2`) and `1 * 1 = 1` for the curvature region,
and the loss-derivatives read spans `1 + 1 = 2` entries from the gradient
offset, overrunning the gradient tag's reserved width of `1`. -/
theorem C1_counterexample :
    (trainWidths 1).getD E_Gradient 0 = 1 ∧
    (trainWidths 1).getD E_Gradient 0 ≠ 1 + lossHessianUpperTriangleSize 1 ∧
    (trainWidths 1).getD E_Gradient 0 < (readLossDerivatives 1).2 := by
  decide

/-- C1, amended.  For every `P ≥ 1` the extra-column layout reserves a
gradient region of width exactly `P` and a curvature region of width
exactly `P * P`, laid out contiguously after the prediction region.  The
loss-derivatives read (`readLossDerivatives`) starts at the gradient offset
and spans `P + P(P+1)/2` entries, which overruns the gradient tag's own
reserved width but stays inside the contiguous gradient-plus-curvature
reservation; the curvature read (`readLossCurvature`) spans
`P(P+1)/2 ≤ P * P` entries of the curvature region; and the per-component
gradient writes (`zeroLossGradient` and the gradient writer) touch only
offsets `gradientOffset + i` with `i < P`, inside the gradient width. -/
theorem C1_extraColumnLayout (P : ℕ) (hP : 1 ≤ P) :
    (trainWidths P).getD E_Gradient 0 = P ∧
    (trainWidths P).getD E_Curvature 0 = P * P ∧
    (readLossDerivatives P).1 = (trainOffsets P).getD E_Gradient 0 ∧
    (trainWidths P).getD E_Gradient 0 < (readLossDerivatives P).2 ∧
    (readLossDerivatives P).1 + (readLossDerivatives P).2 ≤
      (trainOffsets P).getD E_Curvature 0 + (trainWidths P).getD E_Curvature 0 ∧
    (readLossCurvature P).2 = lossHessianUpperTriangleSize P ∧
    lossHessianUpperTriangleSize P ≤ (trainWidths P).getD E_Curvature 0 ∧
    (readLossCurvature P).1 + (readLossCurvature P).2 ≤
      (trainOffsets P).getD E_Curvature 0 + (trainWidths P).getD E_Curvature 0 ∧
    (∀ i < P, (trainOffsets P).getD E_Gradient 0 + i <
      (trainOffsets P).getD E_Gradient 0 + (trainWidths P).getD E_Gradient 0) := by
  have hwidths : trainWidths P = [P, P, P * P] := by
    simp [trainWidths, extraColumnsForTrain]
  have hoffsets : trainOffsets P = [0, P, P + P, P + P + P * P] := by
    simp [trainOffsets, hwidths, List.scanl]
  have hT := lossHessianUpperTriangleSize_le P hP
  have hT1 := one_le_lossHessianUpperTriangleSize P hP
  refine ⟨?_, ?_, ?_, ?_, ?_, ?_, ?_, ?_, ?_⟩ <;>
    simp [hwidths, hoffsets, readLossDerivatives, readLossCurvature,
      E_Gradient, E_Curvature] <;>
    omega

/-- C1, witness of the amended theorem at `P = 3`. -/
theorem C1_extraColumnLayout_witness :
    1 ≤ 3 ∧
    ((trainWidths 3).getD E_Gradient 0 = 3 ∧
    (trainWidths 3).getD E_Curvature 0 = 3 * 3 ∧
    (readLossDerivatives 3).1 = (trainOffsets 3).getD E_Gradient 0 ∧
    (trainWidths 3).getD E_Gradient 0 < (readLossDerivatives 3).2 ∧
    (readLossDerivatives 3).1 + (readLossDerivatives 3).2 ≤
      (trainOffsets 3).getD E_Curvature 0 + (trainWidths 3).getD E_Curvature 0 ∧
    (readLossCurvature 3).2 = lossHessianUpperTriangleSize 3 ∧
    lossHessianUpperTriangleSize 3 ≤ (trainWidths 3).getD E_Curvature 0 ∧
    (readLossCurvature 3).1 + (readLossCurvature 3).2 ≤
      (trainOffsets 3).getD E_Curvature 0 + (trainWidths 3).getD E_Curvature 0 ∧
    (∀ i < 3, (trainOffsets 3).getD E_Gradient 0 + i <
      (trainOffsets 3).getD E_Gradient 0 + (trainWidths 3).getD E_Gradient 0)) :=
  ⟨by norm_num, C1_extraColumnLayout 3 (by norm_num)⟩

/-! ## C9: the example-weight sentinel -/

/-- C9: `readExampleWeight` returns exactly 1 whenever the weight entry of
the extra-column index vector is the out-of-range sentinel
`UNIT_ROW_WEIGHT_COLUMN` — and then does not look at the row at all (the
result is the same for every row, so the sentinel is never dereferenced as
a row index) — and only otherwise indexes the row at the weight column. -/
theorem C9_readExampleWeight (row : List ℚ) (extraColumns : List ℕ) :
    (extraColumns.getD E_Weight 0 = UNIT_ROW_WEIGHT_COLUMN →
      readExampleWeight row extraColumns = 1 ∧
      ∀ row2 : List ℚ, readExampleWeight row2 extraColumns = readExampleWeight row extraColumns) ∧
    (extraColumns.getD E_Weight 0 ≠ UNIT_ROW_WEIGHT_COLUMN →
      readExampleWeight row extraColumns = row.getD (extraColumns.getD E_Weight 0) 0) := by
  constructor
  · intro h
    constructor
    · rw [readExampleWeight, if_pos h]
    · intro row2
      rw [readExampleWeight, if_pos h, readExampleWeight, if_pos h]
  · intro h
    rw [readExampleWeight, if_neg h]

/-- C9, witness: a sentinel weight column yields weight 1, a real weight
column is dereferenced. -/
theorem C9_readExampleWeight_witness :
    readExampleWeight [5] [0, 1, 2, UNIT_ROW_WEIGHT_COLUMN] = 1 ∧
    readExampleWeight [7] [0, 1, 2, 0] = 7 := by
  constructor
  · exact ((C9_readExampleWeight [5] [0, 1, 2, UNIT_ROW_WEIGHT_COLUMN]).1 (by rfl)).1
  · have h := (C9_readExampleWeight [7] [0, 1, 2, 0]).2 (by decide)
    simpa using h

/-! ## C8: reduction failure propagation -/

/-- C8: if the chunked row read behind a reduction fails, `doReduce` reports
failure and returns the caller-supplied reduction value unmodified, and
`columnQuantiles` logs the failure and returns the default (empty) sketch
vector with a `false` success flag instead of crashing. -/
theorem C8_reductionFailure {σ ρ Sketch : Type} (readResults : List σ × Bool)
    (reduceFirst reduce : σ → ρ → ρ) (reduction : ρ)
    (copyQuantiles reduceQuantiles : σ → List Sketch → List Sketch)
    (h : readResults.2 = false) :
    doReduce readResults reduceFirst reduce reduction = (false, reduction) ∧
    columnQuantiles readResults copyQuantiles reduceQuantiles = ([], false) := by
  constructor
  · simp [doReduce, h]
  · simp [columnQuantiles, doReduce, h]

/-- C8, witness at a concrete failed read. -/
theorem C8_reductionFailure_witness :
    doReduce ([5], false) (fun s r => s + r) (fun s r => s + r) 7 = (false, 7) ∧
    columnQuantiles ([5], false) (fun (_ : ℕ) (l : List ℕ) => l)
      (fun (_ : ℕ) (l : List ℕ) => l) = ([], false) :=
  C8_reductionFailure ([5], false) (fun s r => s + r) (fun s r => s + r) 7
    (fun _ l => l) (fun _ l => l) rfl

/-! ## C4: small forests -/

/-- C4: on a forest with fewer than two trees
`retrainTreeSelectionProbabilities` returns the empty probability list; the
early return happens before the normalization loop, so no division by the
normalization constant is performed. -/
theorem C4_smallForestEmpty (numberLossParameters : ℕ) (rows : List RetrainRow)
    (mask : List Bool) (forest : List Tree) (h : forest.length < 2) :
    retrainTreeSelectionProbabilities numberLossParameters rows mask forest = [] := by
  simp [retrainTreeSelectionProbabilities, h]

/-- C4, witness on a one-tree forest. -/
theorem C4_smallForestEmpty_witness :
    ([[⟨0, 0, false, none, none⟩]] : List Tree).length < 2 ∧
    retrainTreeSelectionProbabilities 1 [] [] [[⟨0, 0, false, none, none⟩]] = [] :=
  ⟨by decide, C4_smallForestEmpty 1 [] [] [[⟨0, 0, false, none, none⟩]] (by decide)⟩

theorem getD_map_range_zero {α : Type} (f : ℕ → α) (n : ℕ) (hn : 0 < n) (d : α) :
    ((List.range n).map f).getD 0 d = f 0 := by
  obtain ⟨m, rfl⟩ : ∃ m, n = m + 1 := ⟨n - 1, by omega⟩
  rw [List.range_succ_eq_map]
  rfl

/-! ## C2: the read phase overwrites instead of accumulating -/

/-- C2: the claim (and the source's own comment, which says the sum of loss
gradients is computed for each node, as well as the `Total` in the name of
the lambda producing it) require a leaf's slot to end as the sum of the
gradients of all masked rows assigned to that leaf.  The writer of
`retrainTreeSelectionProbabilities` however assigns the component
(`leafLossGradients[i][leaf](j) = gradient`) instead of accumulating it, so
the slot ends as the gradient of the last masked row assigned to the leaf.
Here two rows with gradients `[1]` and `[2]` land in the same (root) leaf
of both trees of a two-tree forest: the read phase leaves `[2]` in the
slot, not the sum `[3]`. -/
theorem C2_overwriteNotAccumulate :
    computeLeafLossGradients 1 [⟨[], [1]⟩, ⟨[], [2]⟩] [true, true]
      [[⟨0, 0, false, none, none⟩], [⟨0, 0, false, none, none⟩]] =
      [[[2]], [[2]]] ∧ (2 : ℚ) ≠ 1 + 2 := by
  constructor
  · decide
  · norm_num

theorem getD_map_range {α : Type} (f : ℕ → α) {n i : ℕ} (h : i < n) (d : α) :
    ((List.range n).map f).getD i d = f i := by
  rw [List.getD, List.get?_map, List.get?_range h]
  rfl

theorem sum_eq_getD_add (l : List ℚ) : l.sum = l.getD 0 0 + (l.drop 1).sum := by
  cases l <;> simp [List.getD]

theorem sum_map_div (l : List ℚ) (c : ℚ) : (l.map (· / c)).sum = l.sum / c := by
  induction l with
  | nil => simp
  | cons x xs ih => simp [ih, add_div]

theorem lpNorm1_nonneg (v : List ℚ) : 0 ≤ lpNorm1 v := by
  refine List.sum_nonneg ?_
  intro x hx
  obtain ⟨y, _, rfl⟩ := List.mem_map.1 hx
  exact abs_nonneg y

theorem retrainScores_nonneg (numberLossParameters : ℕ) (rows : List RetrainRow)
    (mask : List Bool) (forest : List Tree) :
    ∀ x ∈ retrainScores numberLossParameters rows mask forest, 0 ≤ x := by
  intro x hx
  rw [retrainScores] at hx
  simp only [List.mem_map, List.mem_range] at hx
  obtain ⟨i, _, rfl⟩ := hx
  split
  · exact le_refl 0
  · refine List.sum_nonneg ?_
    intro y hy
    obtain ⟨j, _, rfl⟩ := List.mem_map.1 hy
    exact lpNorm1_nonneg _

/-! ## C3: probability normalization -/

/-- C3, counterexample.  On a two-tree forest with no masked training rows
every accumulated gradient is zero, so every unnormalized score and with
them the normalization constant `Z` are zero, and the returned
probabilities are `0/0 = 0` each: their sum is `0`, not within `1e-6` of
`1` as the claim states for every forest with at least two trees.  (In the
C++ the same input divides `0.0` by `0.0` and returns NaN probabilities,
which equally violate the claim.) -/
theorem C3_counterexample :
    retrainTreeSelectionProbabilities 1 [] []
      [[⟨0, 0, false, none, none⟩], [⟨0, 0, false, none, none⟩]] = [0, 0] ∧
    ¬ (|(retrainTreeSelectionProbabilities 1 [] []
        [[⟨0, 0, false, none, none⟩], [⟨0, 0, false, none, none⟩]]).sum - 1| ≤
      1 / 1000000) := by
  have hsc : retrainScores 1 [] []
      [[⟨0, 0, false, none, none⟩], [⟨0, 0, false, none, none⟩]] = [0, 0] := by
    simp [retrainScores, List.range_succ]
  have hZ : retrainZ 1 [] []
      [[⟨0, 0, false, none, none⟩], [⟨0, 0, false, none, none⟩]] = 0 := by
    rw [retrainZ, hsc]
    simp
  have hres : retrainTreeSelectionProbabilities 1 [] []
      [[⟨0, 0, false, none, none⟩], [⟨0, 0, false, none, none⟩]] = [0, 0] := by
    rw [retrainTreeSelectionProbabilities, if_neg (by norm_num), hsc, hZ]
    simp
  refine ⟨hres, ?_⟩
  rw [hres]
  norm_num

/-- C3, amended.  For every forest with at least two trees, provided the
normalization constant is positive (equivalently, some non-root node of
some tree other than tree 0 carries a nonzero accumulated gradient — with
an all-zero total the code divides zero by zero instead): the returned
vector divides the per-tree scores by the total `Z`; the score of every
tree of index `i ≥ 1` is the sum, over all its non-root nodes, of the L1
norm of the node's propagated (accumulated) loss gradient; every returned
probability is nonnegative; and the probabilities sum to exactly one (in
particular to one within `1e-6`). -/
theorem C3_scoresAndNormalization (numberLossParameters : ℕ) (rows : List RetrainRow)
    (mask : List Bool) (forest : List Tree) (h2 : 2 ≤ forest.length)
    (hZ : 0 < retrainZ numberLossParameters rows mask forest) :
    retrainTreeSelectionProbabilities numberLossParameters rows mask forest =
      (retrainScores numberLossParameters rows mask forest).map
        (· / retrainZ numberLossParameters rows mask forest) ∧
    (∀ i, 1 ≤ i → i < forest.length →
      (retrainScores numberLossParameters rows mask forest).getD i 0 =
        (((List.range (forest.getD i []).length).drop 1).map fun j =>
          lpNorm1
            ((propagateLossGradients (forest.getD i []).length rootIndex
              (forest.getD i [])
              ((computeLeafLossGradients numberLossParameters rows mask forest).getD i
                [])).getD j [])).sum) ∧
    (∀ p ∈ retrainTreeSelectionProbabilities numberLossParameters rows mask forest,
      0 ≤ p) ∧
    (retrainTreeSelectionProbabilities numberLossParameters rows mask forest).sum = 1 := by
  have hn : ¬ forest.length < 2 := by omega
  have hdef : retrainTreeSelectionProbabilities numberLossParameters rows mask forest =
      (retrainScores numberLossParameters rows mask forest).map
        (· / retrainZ numberLossParameters rows mask forest) := by
    rw [retrainTreeSelectionProbabilities, if_neg hn]
  refine ⟨hdef, ?_, ?_, ?_⟩
  · intro i h1 hilt
    rw [retrainScores]
    simp only [getD_map_range _ hilt]
    rw [if_neg (by omega)]
  · intro p hp
    rw [hdef] at hp
    obtain ⟨s, hs, rfl⟩ := List.mem_map.1 hp
    exact div_nonneg (retrainScores_nonneg _ _ _ _ s hs) hZ.le
  · have hhead : (retrainScores numberLossParameters rows mask forest).getD 0 0 = 0 := by
      rw [retrainScores]
      rw [getD_map_range _ (show 0 < forest.length by omega)]
      simp
    have hsum : (retrainScores numberLossParameters rows mask forest).sum =
        retrainZ numberLossParameters rows mask forest := by
      rw [sum_eq_getD_add, hhead, zero_add, retrainZ]
    rw [hdef, sum_map_div, hsum, div_self hZ.ne']

theorem witness_computeLeafLossGradients :
    computeLeafLossGradients 1 [⟨[], [1]⟩] [true] [[leafNode], witTree] =
      [[[1]], [[0], [1], [0]]] := by
  decide

theorem witTree_length : witTree.length = 3 := rfl

theorem witness_propagate :
    propagateLossGradients 3 rootIndex witTree [[0], [1], [0]] = [[1], [1], [0]] := by
  norm_num [propagateLossGradients, rootIndex, witTree, leafNode, CBoostedTreeNode.isLeaf,
    CBoostedTreeNode.leftChildIndex, CBoostedTreeNode.rightChildIndex, vadd]

theorem witness_retrainScores :
    retrainScores 1 [⟨[], [1]⟩] [true] [[leafNode], witTree] = [0, 1] := by
  rw [retrainScores, witness_computeLeafLossGradients]
  norm_num [List.range_succ, witTree_length, witness_propagate, lpNorm1, List.getD,
    List.range', List.getElem?_cons_succ, List.getElem?_cons_zero]

theorem witness_retrainZ :
    retrainZ 1 [⟨[], [1]⟩] [true] [[leafNode], witTree] = 1 := by
  rw [retrainZ, witness_retrainScores]
  simp

/-- C3, witness of the amended theorem: one masked row with gradient `[1]`
lands in a leaf of the second tree, giving it score 1 and a positive
normalization constant. -/
theorem C3_scoresAndNormalization_witness :
    2 ≤ ([[leafNode], witTree] : List Tree).length ∧
    0 < retrainZ 1 [⟨[], [1]⟩] [true] [[leafNode], witTree] ∧
    (retrainTreeSelectionProbabilities 1 [⟨[], [1]⟩] [true] [[leafNode], witTree] =
      (retrainScores 1 [⟨[], [1]⟩] [true] [[leafNode], witTree]).map
        (· / retrainZ 1 [⟨[], [1]⟩] [true] [[leafNode], witTree]) ∧
    (∀ i, 1 ≤ i → i < ([[leafNode], witTree] : List Tree).length →
      (retrainScores 1 [⟨[], [1]⟩] [true] [[leafNode], witTree]).getD i 0 =
        (((List.range (([[leafNode], witTree] : List Tree).getD i []).length).drop 1).map
          fun j =>
          lpNorm1
            ((propagateLossGradients (([[leafNode], witTree] : List Tree).getD i []).length
              rootIndex (([[leafNode], witTree] : List Tree).getD i [])
              ((computeLeafLossGradients 1 [⟨[], [1]⟩] [true] [[leafNode], witTree]).getD i
                [])).getD j [])).sum) ∧
    (∀ p ∈ retrainTreeSelectionProbabilities 1 [⟨[], [1]⟩] [true] [[leafNode], witTree],
      0 ≤ p) ∧
    (retrainTreeSelectionProbabilities 1 [⟨[], [1]⟩] [true] [[leafNode], witTree]).sum =
      1) :=
  ⟨by norm_num,
   by rw [witness_retrainZ]; norm_num,
   C3_scoresAndNormalization 1 [⟨[], [1]⟩] [true] [[leafNode], witTree] (by norm_num)
     (by rw [witness_retrainZ]; norm_num)⟩

/-! ## C10: tree zero is never selected -/

/-- C10, counterexample.  The claim's "that entry is always exactly 0" fails
when the normalization constant `Z` is zero, a reachable case: on a two-tree
forest with an empty training mask every score is 0, `Z = 0`, and the code
divides each entry — including tree 0's — by zero, computing `0.0 / 0.0`,
which is NaN, not 0.  In the division-by-zero-aware model every returned
entry is `none` (non-finite), so tree 0's entry is not the finite value 0. -/
theorem C10_counterexample :
    retrainZ 1 [] [] [[⟨0, 0, false, none, none⟩], [⟨0, 0, false, none, none⟩]] = 0 ∧
    retrainTreeSelectionProbabilitiesChecked 1 [] []
      [[⟨0, 0, false, none, none⟩], [⟨0, 0, false, none, none⟩]] = [none, none] ∧
    (retrainTreeSelectionProbabilitiesChecked 1 [] []
      [[⟨0, 0, false, none, none⟩], [⟨0, 0, false, none, none⟩]]).getD 0 none ≠
      some 0 := by
  have hsc : retrainScores 1 [] []
      [[⟨0, 0, false, none, none⟩], [⟨0, 0, false, none, none⟩]] = [0, 0] := by
    simp [retrainScores, List.range_succ]
  have hZ : retrainZ 1 [] []
      [[⟨0, 0, false, none, none⟩], [⟨0, 0, false, none, none⟩]] = 0 := by
    rw [retrainZ, hsc]
    norm_num
  have hres : retrainTreeSelectionProbabilitiesChecked 1 [] []
      [[⟨0, 0, false, none, none⟩], [⟨0, 0, false, none, none⟩]] = [none, none] := by
    rw [retrainTreeSelectionProbabilitiesChecked, if_neg (by norm_num), hsc, hZ]
    simp [checkedDiv]
  refine ⟨hZ, hres, ?_⟩
  rw [hres]
  simp

/-- C10, amended: the unconditional claim fails at `Z = 0` (see the
counterexample), where every entry is NaN.  On every forest with at least
two trees whose normalization constant `Z` is positive, the probability
list has exactly one entry per tree; the entry of tree 0 (the centring
tree) is the finite value 0 — because the scoring loop starts at tree
index 1 and the score vector is zero-initialized, tree 0's score is 0 and
`0 / Z = 0` exactly for `Z > 0` — so tree 0 is never selected for
retraining; and with `Z > 0` the checked (division-by-zero-aware) model
agrees entrywise with the plain rational one. -/
theorem C10_treeZeroNeverSelected (numberLossParameters : ℕ) (rows : List RetrainRow)
    (mask : List Bool) (forest : List Tree) (h : 2 ≤ forest.length)
    (hZ : 0 < retrainZ numberLossParameters rows mask forest) :
    (retrainTreeSelectionProbabilitiesChecked numberLossParameters rows mask
      forest).length = forest.length ∧
    (retrainTreeSelectionProbabilitiesChecked numberLossParameters rows mask
      forest).getD 0 none = some 0 ∧
    retrainTreeSelectionProbabilitiesChecked numberLossParameters rows mask forest =
      (retrainTreeSelectionProbabilities numberLossParameters rows mask forest).map
        some := by
  have hn : ¬ forest.length < 2 := by omega
  have h0 : 0 < forest.length := by omega
  have hZne : retrainZ numberLossParameters rows mask forest ≠ 0 := ne_of_gt hZ
  refine ⟨?_, ?_, ?_⟩
  · simp [retrainTreeSelectionProbabilitiesChecked, hn, retrainScores]
  · rw [retrainTreeSelectionProbabilitiesChecked, if_neg hn, retrainScores]
    simp only [List.map_map]
    rw [getD_map_range_zero _ _ h0]
    simp [checkedDiv, hZne]
  · rw [retrainTreeSelectionProbabilitiesChecked,
      retrainTreeSelectionProbabilities, if_neg hn, if_neg hn, List.map_map]
    simp [checkedDiv, hZne, Function.comp]

/-- C10, witness on a two-tree forest with one masked row, whose
normalization constant is 1. -/
theorem C10_treeZeroNeverSelected_witness :
    2 ≤ ([[leafNode], witTree] : List Tree).length ∧
    0 < retrainZ 1 [⟨[], [1]⟩] [true] [[leafNode], witTree] ∧
    ((retrainTreeSelectionProbabilitiesChecked 1 [⟨[], [1]⟩] [true]
        [[leafNode], witTree]).length = 2 ∧
      (retrainTreeSelectionProbabilitiesChecked 1 [⟨[], [1]⟩] [true]
        [[leafNode], witTree]).getD 0 none = some 0 ∧
      retrainTreeSelectionProbabilitiesChecked 1 [⟨[], [1]⟩] [true]
          [[leafNode], witTree] =
        (retrainTreeSelectionProbabilities 1 [⟨[], [1]⟩] [true]
          [[leafNode], witTree]).map some) :=
  ⟨by decide, by rw [witness_retrainZ]; norm_num,
    C10_treeZeroNeverSelected 1 [⟨[], [1]⟩] [true] [[leafNode], witTree]
      (by decide) (by rw [witness_retrainZ]; norm_num)⟩

/-! ## Vector and list helpers for gradient propagation -/

theorem vadd_nil (v : List ℚ) : vadd v [] = v := by
  cases v <;> rfl

theorem vadd_length (a b : List ℚ) : (vadd a b).length = max a.length b.length := by
  induction a generalizing b with
  | nil => simp [vadd]
  | cons x xs ih =>
    cases b with
    | nil => simp [vadd]
    | cons y ys =>
      simp only [vadd, List.length_cons, ih]
      omega

theorem vadd_assoc (a b c : List ℚ) : vadd (vadd a b) c = vadd a (vadd b c) := by
  induction a generalizing b c with
  | nil => simp [vadd]
  | cons x xs ih =>
    cases b with
    | nil => simp [vadd]
    | cons y ys =>
      cases c with
      | nil => simp [vadd_nil]
      | cons z zs => simp [vadd, ih, add_assoc]

theorem vadd_replicate_zero (P : ℕ) (x : List ℚ) (h : P ≤ x.length) :
    vadd (List.replicate P 0) x = x := by
  induction P generalizing x with
  | zero => simp [vadd]
  | succ P ih =>
    cases x with
    | nil => simp at h
    | cons y ys =>
      simp only [List.replicate_succ, vadd, zero_add]
      rw [ih ys (by simpa using h)]

theorem foldr_vadd (A : List (List ℚ)) (z : List ℚ) :
    A.foldr vadd z = vadd (A.foldr vadd []) z := by
  induction A with
  | nil => rfl
  | cons a A ih => simp only [List.foldr_cons, ih, vadd_assoc]

theorem vsum_append (A B : List (List ℚ)) : vsum (A ++ B) = vadd (vsum A) (vsum B) := by
  rw [vsum, List.foldr_append, foldr_vadd]
  rfl

theorem vsum_singleton (v : List ℚ) : vsum [v] = v := by
  rw [vsum]
  simp [vadd_nil]

theorem vsum_length (P : ℕ) (vs : List (List ℚ)) (h : ∀ v ∈ vs, v.length = P)
    (hne : vs ≠ []) : (vsum vs).length = P := by
  induction vs with
  | nil => exact absurd rfl hne
  | cons v vs ih =>
    cases vs with
    | nil => rw [vsum_singleton]; exact h v (by simp)
    | cons w ws =>
      have h1 : (vsum (w :: ws)).length = P := ih (fun u hu => h u (by simp [hu])) (by simp)
      have h2 : v.length = P := h v (by simp)
      show (vadd v (vsum (w :: ws))).length = P
      rw [vadd_length, h1, h2, Nat.max_self]

theorem getD_set_ne {α : Type} (l : List α) {i j : ℕ} (a d : α) (h : i ≠ j) :
    (l.set i a).getD j d = l.getD j d := by
  simp [List.getD, List.getElem?_set_ne h]

theorem getD_set_self {α : Type} (l : List α) {i : ℕ} (a d : α) (h : i < l.length) :
    (l.set i a).getD i d = a := by
  simp [List.getD, List.getElem?_set_self, h]

theorem getD_entry_length {P : ℕ} (g : List (List ℚ)) (h : ∀ v ∈ g, v.length = P)
    (i : ℕ) : (g.getD i []).length = P ∨ (g.getD i []).length = 0 := by
  by_cases hi : i < g.length
  · left
    refine h _ ?_
    rw [List.getD_eq_getElem _ _ hi]
    exact List.getElem_mem hi
  · right
    rw [List.getD_eq_default _ _ (by omega)]
    rfl

theorem getD_mem_self {P : ℕ} (g : List (List ℚ)) (h : ∀ v ∈ g, v.length = P)
    {i : ℕ} (hi : i < g.length) : (g.getD i []).length = P := by
  refine h _ ?_
  rw [List.getD_eq_getElem _ _ hi]
  exact List.getElem_mem hi

/-! ## Tree well-formedness and post-order traversal lemmas -/

theorem treeWF_spec {tree : Tree} (hwf : treeWF tree = true) {i : ℕ}
    {nd : CBoostedTreeNode} (hi : tree[i]? = some nd) (hleaf : nd.isLeaf = false) :
    ∃ l r, nd.leftChild = some l ∧ nd.rightChild = some r ∧
      nd.leftChildIndex = l ∧ nd.rightChildIndex = r ∧
      i < l ∧ i < r ∧ l < tree.length ∧ r < tree.length := by
  have hilt : i < tree.length := (List.getElem?_eq_some.1 hi).1
  rw [treeWF, List.all_eq_true] at hwf
  have hall := hwf i (List.mem_range.2 hilt)
  split at hall
  · next heq => rw [hi] at heq; simp at heq
  · next nd2 heq =>
    rw [hi] at heq
    injection heq with heq2
    subst heq2
    split at hall
    · next hl0 =>
      rw [CBoostedTreeNode.isLeaf, hl0] at hleaf
      simp at hleaf
    · simp at hall
    · next l r hl0 hr0 =>
      simp only [Bool.and_eq_true, decide_eq_true_eq] at hall
      exact ⟨l, r, hl0, hr0,
        by rw [CBoostedTreeNode.leftChildIndex, hl0]; rfl,
        by rw [CBoostedTreeNode.rightChildIndex, hr0]; rfl,
        hall.1.1.1, hall.1.1.2, hall.1.2, hall.2⟩

theorem postorder_oor (fuel node : ℕ) (tree : Tree) (h : tree.length ≤ node) :
    postorder fuel node tree = [] := by
  cases fuel with
  | zero => rfl
  | succ fuel =>
    rw [postorder]
    split
    · rfl
    · next nd heq =>
      rw [List.getElem?_eq_none h] at heq
      simp at heq

theorem postorder_mem_lt (tree : Tree) :
    ∀ fuel node, ∀ m ∈ postorder fuel node tree, m < tree.length := by
  intro fuel
  induction fuel with
  | zero => intro node m hm; simp [postorder] at hm
  | succ fuel ih =>
    intro node m hm
    rw [postorder] at hm
    split at hm
    · simp at hm
    · next nd heq =>
      have hlt : node < tree.length := (List.getElem?_eq_some.1 heq).1
      split at hm
      · simp at hm
        omega
      · simp only [List.mem_append, List.mem_singleton] at hm
        rcases hm with (hm | hm) | hm
        · exact ih _ _ hm
        · exact ih _ _ hm
        · omega

theorem postorder_mem_le {tree : Tree} (hwf : treeWF tree = true) :
    ∀ fuel node, ∀ m ∈ postorder fuel node tree, node ≤ m := by
  intro fuel
  induction fuel with
  | zero => intro node m hm; simp [postorder] at hm
  | succ fuel ih =>
    intro node m hm
    rw [postorder] at hm
    split at hm
    · simp at hm
    · next nd heq =>
      split at hm
      · simp at hm
        omega
      · next hleaf =>
        obtain ⟨l, r, _, _, hli, hri, hil, hir, _, _⟩ :=
          treeWF_spec hwf heq (by simpa using hleaf)
        simp only [List.mem_append, List.mem_singleton] at hm
        rcases hm with (hm | hm) | hm
        · have := ih _ _ hm; rw [hli] at this; omega
        · have := ih _ _ hm; rw [hri] at this; omega
        · omega

theorem postorder_self_mem (fuel node : ℕ) (tree : Tree) (h : node < tree.length)
    (hf : 1 ≤ fuel) : node ∈ postorder fuel node tree := by
  obtain ⟨f, rfl⟩ : ∃ f, fuel = f + 1 := ⟨fuel - 1, by omega⟩
  rw [postorder]
  split
  · next heq =>
    rw [List.getElem?_eq_getElem h] at heq
    simp at heq
  · next nd heq =>
    split
    · simp
    · simp

theorem postorder_fuel_eq {tree : Tree} (hwf : treeWF tree = true) :
    ∀ f1 f2 node, tree.length - node ≤ f1 → tree.length - node ≤ f2 →
      postorder f1 node tree = postorder f2 node tree := by
  intro f1
  induction f1 with
  | zero =>
    intro f2 node h1 h2
    have h : tree.length ≤ node := by omega
    rw [postorder_oor _ _ _ h, postorder_oor _ _ _ h]
  | succ f1 ih =>
    intro f2 node h1 h2
    by_cases hnode : node < tree.length
    · obtain ⟨f3, rfl⟩ : ∃ f3, f2 = f3 + 1 := ⟨f2 - 1, by omega⟩
      rw [postorder, postorder]
      cases heq : tree[node]? with
      | none =>
        exfalso
        rw [List.getElem?_eq_getElem hnode] at heq
        simp at heq
      | some nd =>
        simp only [heq]
        by_cases hleaf : nd.isLeaf
        · rw [if_pos hleaf, if_pos hleaf]
        · rw [if_neg hleaf, if_neg hleaf]
          obtain ⟨l, r, _, _, hli, hri, hil, hir, hl, hr⟩ :=
            treeWF_spec hwf heq (by simpa using hleaf)
          rw [ih f3 nd.leftChildIndex (by rw [hli]; omega) (by rw [hli]; omega),
            ih f3 nd.rightChildIndex (by rw [hri]; omega) (by rw [hri]; omega)]
    · rw [postorder_oor _ _ _ (by omega), postorder_oor _ _ _ (by omega)]

theorem leavesUnder_fuel_eq {tree : Tree} (hwf : treeWF tree = true)
    {f1 f2 node : ℕ} (h1 : tree.length - node ≤ f1) (h2 : tree.length - node ≤ f2) :
    leavesUnder f1 node tree = leavesUnder f2 node tree := by
  rw [leavesUnder, leavesUnder, postorder_fuel_eq hwf f1 f2 node h1 h2]

theorem propagate_length (tree : Tree) :
    ∀ fuel node g, (propagateLossGradients fuel node tree g).length = g.length := by
  intro fuel
  induction fuel with
  | zero => intro node g; rfl
  | succ fuel ih =>
    intro node g
    rw [propagateLossGradients]
    split
    · rfl
    · next nd heq =>
      split
      · rfl
      · rw [List.length_set, ih, ih]

theorem propagate_entry_length (P : ℕ) (tree : Tree) :
    ∀ fuel node g, g.length = tree.length → (∀ v ∈ g, v.length = P) →
      ∀ v ∈ propagateLossGradients fuel node tree g, v.length = P := by
  intro fuel
  induction fuel with
  | zero => intro node g _ hP; exact hP
  | succ fuel ih =>
    intro node g hg hP v hv
    rw [propagateLossGradients] at hv
    split at hv
    · exact hP v hv
    · next nd heq =>
      split at hv
      · exact hP v hv
      · have hnode : node < tree.length := (List.getElem?_eq_some.1 heq).1
        have hg1 : (propagateLossGradients fuel nd.leftChildIndex tree g).length =
            tree.length := by rw [propagate_length]; exact hg
        have hP1 := ih nd.leftChildIndex g hg hP
        have hg2 : (propagateLossGradients fuel nd.rightChildIndex tree
            (propagateLossGradients fuel nd.leftChildIndex tree g)).length =
            tree.length := by rw [propagate_length, propagate_length]; exact hg
        have hP2 := ih nd.rightChildIndex _ hg1 hP1
        rcases List.mem_or_eq_of_mem_set hv with hv2 | rfl
        · exact hP2 v hv2
        · have ha : ((propagateLossGradients fuel nd.rightChildIndex tree
              (propagateLossGradients fuel nd.leftChildIndex tree g)).getD node
              []).length = P :=
            getD_mem_self _ hP2 (by omega)
          rcases getD_entry_length _ hP2 nd.leftChildIndex with hb | hb <;>
            rcases getD_entry_length _ hP2 nd.rightChildIndex with hc | hc <;>
            rw [vadd_length, vadd_length, ha, hb, hc] <;> omega

theorem propagate_outside (tree : Tree) :
    ∀ fuel node g m, m ∉ postorder fuel node tree →
      (propagateLossGradients fuel node tree g).getD m [] = g.getD m [] := by
  intro fuel
  induction fuel with
  | zero => intro node g m _; rfl
  | succ fuel ih =>
    intro node g m hm
    rw [postorder] at hm
    rw [propagateLossGradients]
    split
    · next heq => rfl
    · next nd heq =>
      simp only [heq] at hm
      by_cases hleaf : nd.isLeaf
      · rw [if_pos hleaf]
      · rw [if_neg hleaf]
        rw [if_neg hleaf] at hm
        simp only [List.mem_append, List.mem_singleton, not_or] at hm
        obtain ⟨⟨hml, hmr⟩, hmn⟩ := hm
        rw [getD_set_ne _ _ _ (fun h => hmn h.symm), ih _ _ _ hmr, ih _ _ _ hml]

theorem propagate_leafSlot (tree : Tree) :
    ∀ fuel node g m, isLeafAt tree m = true →
      (propagateLossGradients fuel node tree g).getD m [] = g.getD m [] := by
  intro fuel
  induction fuel with
  | zero => intro node g m _; rfl
  | succ fuel ih =>
    intro node g m hm
    rw [propagateLossGradients]
    split
    · rfl
    · next nd heq =>
      split
      · rfl
      · next hleaf =>
        have hmn : node ≠ m := by
          intro h
          subst h
          rw [isLeafAt] at hm
          simp only [heq] at hm
          exact hleaf hm
        rw [getD_set_ne _ _ _ hmn, ih _ _ _ hm, ih _ _ _ hm]

theorem leavesUnder_nonempty {tree : Tree} (hwf : treeWF tree = true) :
    ∀ fuel node, node < tree.length → tree.length - node ≤ fuel →
      leavesUnder fuel node tree ≠ [] := by
  intro fuel
  induction fuel with
  | zero => intro node h1 h2 _; omega
  | succ fuel ih =>
    intro node h1 h2
    rw [leavesUnder, postorder]
    split
    · next heq =>
      rw [List.getElem?_eq_getElem h1] at heq
      simp at heq
    · next nd heq =>
      have hnd : tree[node]? = some nd := heq
      by_cases hleaf : nd.isLeaf
      · rw [if_pos hleaf]
        have : isLeafAt tree node = true := by rw [isLeafAt, hnd]; exact hleaf
        simp [List.filter, this]
      · rw [if_neg hleaf]
        obtain ⟨l, r, _, _, hli, hri, hil, hir, hl, hr⟩ :=
          treeWF_spec hwf hnd (by simpa using hleaf)
        intro hcontra
        rw [List.filter_append, List.filter_append] at hcontra
        have h3 := List.append_eq_nil.1 hcontra
        have h4 := List.append_eq_nil.1 h3.1
        exact ih nd.leftChildIndex (by omega) (by omega) h4.1

theorem propagate_sums (P : ℕ) {tree : Tree} (hwf : treeWF tree = true) :
    ∀ fuel node g, tree.length - node ≤ fuel →
      (postorder fuel node tree).Nodup →
      g.length = tree.length →
      (∀ v ∈ g, v.length = P) →
      (∀ m ∈ postorder fuel node tree, isLeafAt tree m = false →
        g.getD m [] = List.replicate P 0) →
      ∀ m ∈ postorder fuel node tree,
        (propagateLossGradients fuel node tree g).getD m [] =
          vsum ((leavesUnder fuel m tree).map fun x => g.getD x []) := by
  intro fuel
  induction fuel with
  | zero => intro node g _ _ _ _ _ m hm; simp [postorder] at hm
  | succ fuel ih =>
    intro node g hfuel hnodup hg hP hzero m hm
    rw [postorder] at hm hnodup hzero
    rw [propagateLossGradients]
    split
    · next heq =>
      simp only [heq] at hm
      simp at hm
    · next nd heq =>
      have hnode : node < tree.length := (List.getElem?_eq_some.1 heq).1
      simp only [heq] at hm hnodup hzero
      by_cases hleaf : nd.isLeaf
      · -- leaf: the gradients are untouched and the only subtree node is the leaf
        rw [if_pos hleaf] at hm ⊢
        simp only [List.mem_singleton] at hm
        subst hm
        have hla : isLeafAt tree m = true := by
          rw [isLeafAt]
          simp only [heq]
          exact hleaf
        rw [leavesUnder, postorder]
        simp only [heq, if_pos hleaf]
        simp [List.filter, hla, vsum_singleton]
      · rw [if_neg hleaf] at hm hnodup hzero ⊢
        obtain ⟨l, r, hlc, hrc, hli, hri, hil, hir, hl, hr⟩ :=
          treeWF_spec hwf heq (by simpa using hleaf)
        have hfl : tree.length - nd.leftChildIndex ≤ fuel := by omega
        have hfr : tree.length - nd.rightChildIndex ≤ fuel := by omega
        have hlen1 : 1 ≤ fuel := by omega
        -- decompose the nodup hypothesis
        obtain ⟨h12, -, hdisjn⟩ := List.nodup_append.1 hnodup
        obtain ⟨hnl, hnr, hdisjlr⟩ := List.nodup_append.1 h12
        have hnodePl : node ∉ postorder fuel nd.leftChildIndex tree := fun hc =>
          hdisjn (List.mem_append_left _ hc) (by simp)
        have hnodePr : node ∉ postorder fuel nd.rightChildIndex tree := fun hc =>
          hdisjn (List.mem_append_right _ hc) (by simp)
        -- the two propagation stages
        have hg1len : (propagateLossGradients fuel nd.leftChildIndex tree g).length =
            tree.length := by rw [propagate_length]; exact hg
        have hP1 : ∀ v ∈ propagateLossGradients fuel nd.leftChildIndex tree g,
            v.length = P := propagate_entry_length P tree fuel _ g hg hP
        have IHl : ∀ m2 ∈ postorder fuel nd.leftChildIndex tree,
            (propagateLossGradients fuel nd.leftChildIndex tree g).getD m2 [] =
              vsum ((leavesUnder fuel m2 tree).map fun x => g.getD x []) :=
          ih _ g hfl hnl hg hP fun m2 hm2 hlf =>
            hzero m2 (List.mem_append_left _ (List.mem_append_left _ hm2)) hlf
        have hzero1 : ∀ m2 ∈ postorder fuel nd.rightChildIndex tree,
            isLeafAt tree m2 = false →
            (propagateLossGradients fuel nd.leftChildIndex tree g).getD m2 [] =
              List.replicate P 0 := by
          intro m2 hm2 hlf
          rw [propagate_outside tree fuel _ g m2 fun hc => hdisjlr hc hm2]
          exact hzero m2 (List.mem_append_left _ (List.mem_append_right _ hm2)) hlf
        have IHr : ∀ m2 ∈ postorder fuel nd.rightChildIndex tree,
            (propagateLossGradients fuel nd.rightChildIndex tree
              (propagateLossGradients fuel nd.leftChildIndex tree g)).getD m2 [] =
              vsum ((leavesUnder fuel m2 tree).map fun x =>
                (propagateLossGradients fuel nd.leftChildIndex tree g).getD x []) :=
          ih _ _ hfr hnr hg1len hP1 hzero1
        have hcongr : ∀ m2, ((leavesUnder fuel m2 tree).map fun x =>
            (propagateLossGradients fuel nd.leftChildIndex tree g).getD x []) =
            (leavesUnder fuel m2 tree).map fun x => g.getD x [] := by
          intro m2
          refine List.map_congr_left fun x hx => ?_
          exact propagate_leafSlot tree fuel _ g x (List.mem_filter.1 hx).2
        have hg2len : (propagateLossGradients fuel nd.rightChildIndex tree
            (propagateLossGradients fuel nd.leftChildIndex tree g)).length =
            tree.length := by rw [propagate_length, propagate_length]; exact hg
        simp only [List.mem_append, List.mem_singleton] at hm
        rcases hm with (hml | hmr2) | rfl
        · -- m in the left subtree
          have hmge : nd.leftChildIndex ≤ m := postorder_mem_le hwf fuel _ m hml
          have hmlt2 : tree.length - m ≤ fuel := by omega
          rw [leavesUnder_fuel_eq hwf (show tree.length - m ≤ fuel + 1 by omega) hmlt2]
          have hmne : m ≠ node := fun hcc => hnodePl (hcc ▸ hml)
          rw [getD_set_ne _ _ _ hmne.symm]
          rw [propagate_outside tree fuel _ _ m fun hc => hdisjlr hml hc]
          exact IHl m hml
        · -- m in the right subtree
          have hmge : nd.rightChildIndex ≤ m := postorder_mem_le hwf fuel _ m hmr2
          have hmlt2 : tree.length - m ≤ fuel := by omega
          rw [leavesUnder_fuel_eq hwf (show tree.length - m ≤ fuel + 1 by omega) hmlt2]
          have hmne : m ≠ node := fun hcc => hnodePr (hcc ▸ hmr2)
          rw [getD_set_ne _ _ _ hmne.symm]
          rw [IHr m hmr2, hcongr m]
        · -- m is the node itself
          rw [getD_set_self _ _ _ (by rw [hg2len]; exact hnode)]
          have hv0 : (propagateLossGradients fuel nd.rightChildIndex tree
              (propagateLossGradients fuel nd.leftChildIndex tree g)).getD m [] =
              List.replicate P 0 := by
            rw [propagate_outside tree fuel _ _ m hnodePr,
              propagate_outside tree fuel _ g m hnodePl]
            refine hzero m (List.mem_append_right _ (by simp)) ?_
            rw [isLeafAt]
            simp only [heq]
            simpa using hleaf
          have hvl : (propagateLossGradients fuel nd.rightChildIndex tree
              (propagateLossGradients fuel nd.leftChildIndex tree g)).getD
                nd.leftChildIndex [] =
              vsum ((leavesUnder fuel nd.leftChildIndex tree).map fun x => g.getD x []) := by
            have hself : nd.leftChildIndex ∈ postorder fuel nd.leftChildIndex tree :=
              postorder_self_mem fuel _ tree (by omega) hlen1
            rw [propagate_outside tree fuel _ _ _ fun hc => hdisjlr hself hc]
            exact IHl _ hself
          have hvr : (propagateLossGradients fuel nd.rightChildIndex tree
              (propagateLossGradients fuel nd.leftChildIndex tree g)).getD
                nd.rightChildIndex [] =
              vsum ((leavesUnder fuel nd.rightChildIndex tree).map fun x => g.getD x []) := by
            have hself : nd.rightChildIndex ∈ postorder fuel nd.rightChildIndex tree :=
              postorder_self_mem fuel _ tree (by omega) hlen1
            rw [IHr _ hself, hcongr]
          rw [hv0, hvl, hvr]
          -- the leaves under the node are the leaves under its two children
          have hleaves : leavesUnder (fuel + 1) m tree =
              leavesUnder fuel nd.leftChildIndex tree ++
                leavesUnder fuel nd.rightChildIndex tree := by
            rw [leavesUnder, postorder]
            simp only [heq, if_neg hleaf]
            rw [List.filter_append, List.filter_append]
            have hnlf : isLeafAt tree m = false := by
              rw [isLeafAt]
              simp only [heq]
              simpa using hleaf
            simp [List.filter, hnlf, leavesUnder]
          rw [hleaves, List.map_append, vsum_append]
          congr 1
          -- vadd of the zero vector: the left sum has length P
          have hXlen : (vsum ((leavesUnder fuel nd.leftChildIndex tree).map
              fun x => g.getD x [])).length = P := by
            refine vsum_length P _ ?_ ?_
            · intro v hv
              obtain ⟨x, hx, rfl⟩ := List.mem_map.1 hv
              have hxlt : x < tree.length :=
                postorder_mem_lt tree fuel _ x (List.mem_filter.1 hx).1
              exact getD_mem_self g hP (by omega)
            · have hne := leavesUnder_nonempty hwf fuel nd.leftChildIndex (by omega) hfl
              intro hc
              exact hne (List.map_eq_nil.1 hc)
          rw [vadd_replicate_zero P _ (by rw [hXlen])]

theorem postorder_children_before {tree : Tree} (hwf : treeWF tree = true) :
    ∀ fuel node, tree.length - node ≤ fuel →
      ∀ m ∈ postorder fuel node tree, ∀ nd, tree[m]? = some nd →
        nd.isLeaf = false →
        ∃ A B, postorder fuel node tree = A ++ m :: B ∧
          nd.leftChildIndex ∈ A ∧ nd.rightChildIndex ∈ A := by
  intro fuel
  induction fuel with
  | zero => intro node _ m hm; simp [postorder] at hm
  | succ fuel ih =>
    intro node hfuel m hm nd2 hm2 hleaf2
    rw [postorder] at hm ⊢
    split at hm
    · simp at hm
    · next nd heq =>
      have hnode : node < tree.length := (List.getElem?_eq_some.1 heq).1
      split at hm
      · next hleaf =>
        simp only [List.mem_singleton] at hm
        subst hm
        rw [hm2] at heq
        injection heq with heq2
        rw [heq2, hleaf] at hleaf2
        simp at hleaf2
      · next hleaf =>
        rw [if_neg hleaf]
        obtain ⟨l, r, hlc, hrc, hli, hri, hil, hir, hl, hr⟩ :=
          treeWF_spec hwf heq (by simpa using hleaf)
        have hfl : tree.length - nd.leftChildIndex ≤ fuel := by omega
        have hfr : tree.length - nd.rightChildIndex ≤ fuel := by omega
        have hlen1 : 1 ≤ fuel := by omega
        simp only [List.mem_append, List.mem_singleton] at hm
        rcases hm with (hml | hmr) | rfl
        · obtain ⟨A, B, hAB, hinA, hinB⟩ := ih _ hfl m hml nd2 hm2 hleaf2
          refine ⟨A, B ++ postorder fuel nd.rightChildIndex tree ++ [node], ?_, hinA, hinB⟩
          rw [hAB]
          simp [List.append_assoc]
        · obtain ⟨A, B, hAB, hinA, hinB⟩ := ih _ hfr m hmr nd2 hm2 hleaf2
          refine ⟨postorder fuel nd.leftChildIndex tree ++ A, B ++ [node], ?_, ?_, ?_⟩
          · rw [hAB]
            simp [List.append_assoc]
          · exact List.mem_append_right _ hinA
          · exact List.mem_append_right _ hinB
        · rw [hm2] at heq
          injection heq with heq2
          subst heq2
          refine ⟨postorder fuel nd2.leftChildIndex tree ++
              postorder fuel nd2.rightChildIndex tree, [], by simp, ?_, ?_⟩
          · exact List.mem_append_left _
              (postorder_self_mem fuel _ tree (by omega) hlen1)
          · exact List.mem_append_right _
              (postorder_self_mem fuel _ tree (by omega) hlen1)

/-! ## C7: gradient propagation is a post-order subtree summation -/

/-- C7: `propagateLossGradients` performs one post-order traversal of each
tree (the traversal finishing order is `postorder`): every internal node of
the traversed subtree appears in the traversal strictly after both of its
children, which is exactly the order in which the function reads a node's
child slots (a node's sum is formed only after both children have been
visited); and on termination every node's slot holds the sum of the
(initial) gradient slots of all leaves in its subtree — in particular every
internal node's slot is the sum of its subtree's leaf gradients.
Hypotheses: the tree satisfies the append-only child invariant (`treeWF`),
the traversal visits no node twice (the node vector is a tree, not a DAG),
the slot vector has one `P`-dimensional entry per node, and internal slots
start at zero (as `retrainTreeSelectionProbabilities` zero-initializes them
and its read phase writes only leaf slots). -/
theorem C7_propagatePostorder (P : ℕ) (tree : Tree) (g : List (List ℚ))
    (hwf : treeWF tree = true)
    (hnodup : (postorder tree.length rootIndex tree).Nodup)
    (hg : g.length = tree.length)
    (hP : ∀ v ∈ g, v.length = P)
    (hzero : ∀ m ∈ postorder tree.length rootIndex tree, isLeafAt tree m = false →
      g.getD m [] = List.replicate P 0) :
    (∀ m ∈ postorder tree.length rootIndex tree, ∀ nd, tree[m]? = some nd →
      nd.isLeaf = false →
      ∃ A B, postorder tree.length rootIndex tree = A ++ m :: B ∧
        nd.leftChildIndex ∈ A ∧ nd.rightChildIndex ∈ A) ∧
    (∀ m ∈ postorder tree.length rootIndex tree,
      (propagateLossGradients tree.length rootIndex tree g).getD m [] =
        vsum ((leavesUnder tree.length m tree).map fun x => g.getD x [])) :=
  ⟨fun m hm nd hnd hleaf =>
    postorder_children_before hwf tree.length rootIndex (by rw [rootIndex]; omega)
      m hm nd hnd hleaf,
   propagate_sums P hwf tree.length rootIndex g (by rw [rootIndex]; omega)
     hnodup hg hP hzero⟩

/-- C7, witness on the three-node tree with leaf slots `[3]` and `[4]` and a
zeroed internal slot. -/
theorem C7_propagatePostorder_witness :
    treeWF witTree = true ∧
    (postorder witTree.length rootIndex witTree).Nodup ∧
    ([[0], [3], [4]] : List (List ℚ)).length = witTree.length ∧
    (∀ v ∈ ([[0], [3], [4]] : List (List ℚ)), v.length = 1) ∧
    (∀ m ∈ postorder witTree.length rootIndex witTree, isLeafAt witTree m = false →
      ([[0], [3], [4]] : List (List ℚ)).getD m [] = List.replicate 1 0) ∧
    ((∀ m ∈ postorder witTree.length rootIndex witTree, ∀ nd, witTree[m]? = some nd →
      nd.isLeaf = false →
      ∃ A B, postorder witTree.length rootIndex witTree = A ++ m :: B ∧
        nd.leftChildIndex ∈ A ∧ nd.rightChildIndex ∈ A) ∧
    (∀ m ∈ postorder witTree.length rootIndex witTree,
      (propagateLossGradients witTree.length rootIndex witTree [[0], [3], [4]]).getD m [] =
        vsum ((leavesUnder witTree.length m witTree).map
          fun x => ([[0], [3], [4]] : List (List ℚ)).getD x []))) :=
  ⟨by decide, by decide, by decide, by decide, by decide,
   C7_propagatePostorder 1 witTree [[0], [3], [4]] (by decide) (by decide) (by decide)
     (by decide) (by decide)⟩

/-! ## Cross-validation fold loop lemmas -/

theorem symmDiff_of_subset {a b : Finset ℕ} (h : b ⊆ a) : symmDiff a b = a \ b := by
  ext x
  simp only [Finset.mem_symmDiff, Finset.mem_sdiff]
  constructor
  · rintro (⟨h1, h2⟩ | ⟨h1, h2⟩)
    · exact ⟨h1, h2⟩
    · exact absurd (h h1) h2
  · exact fun h2 => Or.inl h2

theorem sdiff_union_eq (a b c : Finset ℕ) : a \ (b ∪ c) = (a \ b) \ c := by
  ext x
  simp only [Finset.mem_sdiff, Finset.mem_union, not_or]
  tauto

theorem firstK_subset (k : ℕ) (m : Finset ℕ) : firstK k m ⊆ m := by
  induction k generalizing m with
  | zero => simp [firstK]
  | succ k ih =>
    rw [firstK]
    split
    · next h =>
      intro x hx
      rcases Finset.mem_insert.1 hx with rfl | hx
      · exact m.min'_mem _
      · exact Finset.erase_subset _ _ (ih _ hx)
    · simp

theorem firstK_card (k : ℕ) (m : Finset ℕ) : (firstK k m).card = min k m.card := by
  induction k generalizing m with
  | zero => simp [firstK]
  | succ k ih =>
    rw [firstK]
    split
    · next h =>
      have ha : m.min' (Finset.card_pos.1 h) ∈ m := m.min'_mem _
      have hnotmem : m.min' (Finset.card_pos.1 h) ∉
          firstK k (m.erase (m.min' (Finset.card_pos.1 h))) := fun hmem =>
        Finset.not_mem_erase _ m (firstK_subset _ _ hmem)
      rw [Finset.card_insert_of_not_mem hnotmem, ih, Finset.card_erase_of_mem ha]
      omega
    · next h =>
      have : m = ∅ := Finset.card_eq_zero.1 (by omega)
      simp [this]

theorem cvFoldLoop_length (smp : ℕ → Finset ℕ → Finset ℕ) (s e : ℕ) (all : Finset ℕ) :
    ∀ numberFolds cand, ((cvFoldLoop smp s e all numberFolds cand).1).length = numberFolds := by
  intro numberFolds
  induction numberFolds with
  | zero => intro cand; rfl
  | succ numberFolds ih => intro cand; simp only [cvFoldLoop, List.length_cons, ih]

theorem cvFoldLoop_base_subset (smp : ℕ → Finset ℕ → Finset ℕ) (s e : ℕ)
    (all : Finset ℕ) (Hs : ∀ k m2, smp k m2 ⊆ m2) :
    ∀ numberFolds cand, ∀ f ∈ (cvFoldLoop smp s e all numberFolds cand).1,
      f.base ⊆ f.remaining := by
  intro numberFolds
  induction numberFolds with
  | zero => intro cand f hf; simp [cvFoldLoop] at hf
  | succ numberFolds ih =>
    intro cand f hf
    rw [cvFoldLoop] at hf
    simp only [List.mem_cons] at hf
    rcases hf with rfl | hf
    · by_cases h : cand.card ≤ s
      · simp only [if_pos h]
        exact Finset.Subset.refl _
      · simp only [if_neg h]
        exact Hs s cand
    · exact ih _ f hf

theorem cvFoldLoop_base_card (smp : ℕ → Finset ℕ → Finset ℕ) (s e : ℕ)
    (all : Finset ℕ) (Hc : ∀ k m2, (smp k m2).card = min k m2.card) :
    ∀ numberFolds cand, ∀ f ∈ (cvFoldLoop smp s e all numberFolds cand).1,
      f.base.card = min s f.remaining.card := by
  intro numberFolds
  induction numberFolds with
  | zero => intro cand f hf; simp [cvFoldLoop] at hf
  | succ numberFolds ih =>
    intro cand f hf
    rw [cvFoldLoop] at hf
    simp only [List.mem_cons] at hf
    rcases hf with rfl | hf
    · by_cases h : cand.card ≤ s
      · simp only [if_pos h]
        omega

      · simp only [if_neg h]
        exact Hc s cand
    · exact ih _ f hf

theorem cvFoldLoop_remaining_subset (smp : ℕ → Finset ℕ → Finset ℕ) (s e : ℕ)
    (all : Finset ℕ) (Hs : ∀ k m2, smp k m2 ⊆ m2) :
    ∀ numberFolds cand, ∀ f ∈ (cvFoldLoop smp s e all numberFolds cand).1,
      f.remaining ⊆ cand := by
  intro numberFolds
  induction numberFolds with
  | zero => intro cand f hf; simp [cvFoldLoop] at hf
  | succ numberFolds ih =>
    intro cand f hf
    rw [cvFoldLoop] at hf
    simp only [List.mem_cons] at hf
    rcases hf with rfl | hf
    · exact Finset.Subset.refl _
    · refine (ih _ f hf).trans ?_
      by_cases h : cand.card ≤ s
      · simp only [if_pos h]
        exact Finset.empty_subset _
      · simp only [if_neg h]
        rw [symmDiff_of_subset (Hs s cand)]
        exact Finset.sdiff_subset

theorem cvFoldLoop_final_subset (smp : ℕ → Finset ℕ → Finset ℕ) (s e : ℕ)
    (all : Finset ℕ) (Hs : ∀ k m2, smp k m2 ⊆ m2) :
    ∀ numberFolds cand, (cvFoldLoop smp s e all numberFolds cand).2 ⊆ cand := by
  intro numberFolds
  induction numberFolds with
  | zero => intro cand; exact Finset.Subset.refl _
  | succ numberFolds ih =>
    intro cand
    rw [cvFoldLoop]
    refine (ih _).trans ?_
    by_cases h : cand.card ≤ s
    · simp only [if_pos h]
      exact Finset.empty_subset _
    · simp only [if_neg h]
      rw [symmDiff_of_subset (Hs s cand)]
      exact Finset.sdiff_subset

theorem cvFoldLoop_remaining_closed (smp : ℕ → Finset ℕ → Finset ℕ) (s e : ℕ)
    (all : Finset ℕ) (Hs : ∀ k m2, smp k m2 ⊆ m2) :
    ∀ numberFolds cand i, i < numberFolds →
      (((cvFoldLoop smp s e all numberFolds cand).1).getD i ⟨∅, ∅, ∅⟩).remaining =
        cand \ unionList
          ((((cvFoldLoop smp s e all numberFolds cand).1).take i).map CvFold.base) := by
  intro numberFolds
  induction numberFolds with
  | zero => intro cand i hi; omega
  | succ numberFolds ih =>
    intro cand i hi
    cases i with
    | zero => simp [cvFoldLoop, unionList, List.getD_cons_zero]
    | succ i =>
      have hcand2 : (if cand.card ≤ s then (∅ : Finset ℕ)
          else symmDiff cand (smp s cand)) = cand \
            (if cand.card ≤ s then cand else smp s cand) := by
        by_cases h : cand.card ≤ s
        · simp [h]
        · simp only [if_neg h]
          exact symmDiff_of_subset (Hs s cand)
      simp only [cvFoldLoop, List.getD_cons_succ, List.take_succ_cons, List.map_cons]
      rw [unionList, List.foldr_cons, ← unionList]
      rw [ih _ i (by omega), hcand2, sdiff_union_eq]

theorem cvFoldLoop_empty_remaining (smp : ℕ → Finset ℕ → Finset ℕ) (s e : ℕ)
    (all : Finset ℕ) :
    ∀ numberFolds j, j < numberFolds →
      (((cvFoldLoop smp s e all numberFolds ∅).1).getD j ⟨∅, ∅, ∅⟩).remaining = ∅ := by
  intro numberFolds
  induction numberFolds with
  | zero => intro j hj; omega
  | succ numberFolds ih =>
    intro j hj
    cases j with
    | zero => simp [cvFoldLoop, List.getD_cons_zero]
    | succ j =>
      have h0 : (∅ : Finset ℕ).card ≤ s := by simp
      simp only [cvFoldLoop, if_pos h0, List.getD_cons_succ]
      exact ih j (by omega)

theorem cvFoldLoop_wholesale (smp : ℕ → Finset ℕ → Finset ℕ) (s e : ℕ)
    (all : Finset ℕ) :
    ∀ numberFolds cand i, i < numberFolds →
      (((cvFoldLoop smp s e all numberFolds cand).1).getD i ⟨∅, ∅, ∅⟩).remaining.card ≤ s →
      (((cvFoldLoop smp s e all numberFolds cand).1).getD i ⟨∅, ∅, ∅⟩).base =
        (((cvFoldLoop smp s e all numberFolds cand).1).getD i ⟨∅, ∅, ∅⟩).remaining ∧
      ∀ j, j < numberFolds → i < j →
        (((cvFoldLoop smp s e all numberFolds cand).1).getD j ⟨∅, ∅, ∅⟩).remaining = ∅ := by
  intro numberFolds
  induction numberFolds with
  | zero => intro cand i hi; omega
  | succ numberFolds ih =>
    intro cand i hi
    cases i with
    | zero =>
      simp only [cvFoldLoop, List.getD_cons_zero]
      intro hcard
      refine ⟨by simp [if_pos hcard], ?_⟩
      intro j hj hij
      obtain ⟨j2, rfl⟩ : ∃ j2, j = j2 + 1 := ⟨j - 1, by omega⟩
      simp only [cvFoldLoop, if_pos hcard, List.getD_cons_succ]
      exact cvFoldLoop_empty_remaining smp s e all numberFolds j2 (by omega)
    | succ i =>
      simp only [cvFoldLoop, List.getD_cons_succ]
      intro hcard
      obtain ⟨h1, h2⟩ := ih _ i (by omega) hcard
      refine ⟨h1, ?_⟩
      intro j hj hij
      obtain ⟨j2, rfl⟩ : ∃ j2, j = j2 + 1 := ⟨j - 1, by omega⟩
      simp only [List.getD_cons_succ]
      exact h2 j2 (by omega) (by omega)

theorem cvFoldLoop_test_eq_base (smp : ℕ → Finset ℕ → Finset ℕ) (s : ℕ)
    (all : Finset ℕ) :
    ∀ numberFolds cand, ∀ f ∈ (cvFoldLoop smp s 0 all numberFolds cand).1,
      f.test = f.base := by
  intro numberFolds
  induction numberFolds with
  | zero => intro cand f hf; simp [cvFoldLoop] at hf
  | succ numberFolds ih =>
    intro cand f hf
    rw [cvFoldLoop] at hf
    simp only [List.mem_cons] at hf
    rcases hf with rfl | hf
    · simp
    · exact ih _ f hf

theorem cvFoldLoop_test_subset (smp : ℕ → Finset ℕ → Finset ℕ) (s : ℕ)
    (all : Finset ℕ) (Hs : ∀ k m2, smp k m2 ⊆ m2) :
    ∀ numberFolds cand, ∀ f ∈ (cvFoldLoop smp s 0 all numberFolds cand).1,
      f.test ⊆ cand := by
  intro numberFolds cand f hf
  rw [cvFoldLoop_test_eq_base smp s all numberFolds cand f hf]
  exact (cvFoldLoop_base_subset smp s 0 all Hs numberFolds cand f hf).trans
    (cvFoldLoop_remaining_subset smp s 0 all Hs numberFolds cand f hf)

theorem cvFoldLoop_pairwise (smp : ℕ → Finset ℕ → Finset ℕ) (s : ℕ)
    (all : Finset ℕ) (Hs : ∀ k m2, smp k m2 ⊆ m2) :
    ∀ numberFolds cand,
      List.Pairwise (fun a b => a ∩ b = ∅)
        (((cvFoldLoop smp s 0 all numberFolds cand).1).map CvFold.test) := by
  intro numberFolds
  induction numberFolds with
  | zero => intro cand; simp [cvFoldLoop]
  | succ numberFolds ih =>
    intro cand
    rw [cvFoldLoop]
    simp only [List.map_cons, List.pairwise_cons]
    constructor
    · intro t ht
      obtain ⟨f, hf, rfl⟩ := List.mem_map.1 ht
      have htsub : f.test ⊆ (if cand.card ≤ s then (∅ : Finset ℕ)
          else symmDiff cand (smp s cand)) :=
        cvFoldLoop_test_subset smp s all Hs numberFolds _ f hf
      by_cases h : cand.card ≤ s
      · rw [if_pos h] at htsub
        simp only [if_pos h]
        have : f.test = ∅ := Finset.subset_empty.1 htsub
        rw [this]
        exact Finset.inter_empty _
      · rw [if_neg h, symmDiff_of_subset (Hs s cand)] at htsub
        simp only [if_neg h]
        refine Finset.eq_empty_of_forall_not_mem fun x hx => ?_
        obtain ⟨hx1, hx2⟩ := Finset.mem_inter.1 hx
        exact (Finset.mem_sdiff.1 (htsub hx2)).2 hx1
    · exact ih _

theorem cvFoldLoop_union (smp : ℕ → Finset ℕ → Finset ℕ) (s : ℕ)
    (all : Finset ℕ) (Hs : ∀ k m2, smp k m2 ⊆ m2) :
    ∀ numberFolds cand,
      unionList (((cvFoldLoop smp s 0 all numberFolds cand).1).map CvFold.test) =
        cand \ (cvFoldLoop smp s 0 all numberFolds cand).2 := by
  intro numberFolds
  induction numberFolds with
  | zero => intro cand; simp [cvFoldLoop, unionList]
  | succ numberFolds ih =>
    intro cand
    rw [cvFoldLoop]
    simp only [List.map_cons]
    rw [unionList, List.foldr_cons, ← unionList, ih]
    by_cases h : cand.card ≤ s
    · simp only [if_pos h, if_neg (by simp : ¬ (0:ℕ) < 0)]
      have hfin : (cvFoldLoop smp s 0 all numberFolds ∅).2 = ∅ :=
        Finset.subset_empty.1 (cvFoldLoop_final_subset smp s 0 all Hs numberFolds ∅)
      rw [hfin]
      simp
    · simp only [if_neg h, if_neg (by simp : ¬ (0:ℕ) < 0)]
      rw [symmDiff_of_subset (Hs s cand)]
      have hfin : (cvFoldLoop smp s 0 all numberFolds (cand \ smp s cand)).2 ⊆
          cand \ smp s cand :=
        cvFoldLoop_final_subset smp s 0 all Hs numberFolds _
      ext x
      simp only [Finset.mem_union, Finset.mem_sdiff]
      constructor
      · rintro (hx | ⟨⟨hx1, hx2⟩, hx3⟩)
        · refine ⟨Hs s cand hx, fun hc => ?_⟩
          exact (Finset.mem_sdiff.1 (hfin hc)).2 hx
        · exact ⟨hx1, hx3⟩
      · rintro ⟨hx1, hx2⟩
        by_cases hx3 : x ∈ smp s cand
        · exact Or.inl hx3
        · exact Or.inr ⟨⟨hx1, hx3⟩, hx2⟩

theorem cvFoldLoop_final_empty (smp : ℕ → Finset ℕ → Finset ℕ) (s e : ℕ)
    (all : Finset ℕ) (Hs : ∀ k m2, smp k m2 ⊆ m2)
    (Hc : ∀ k m2, (smp k m2).card = min k m2.card) :
    ∀ numberFolds cand, cand.card ≤ numberFolds * s →
      (cvFoldLoop smp s e all numberFolds cand).2 = ∅ := by
  intro numberFolds
  induction numberFolds with
  | zero =>
    intro cand hcard
    simp only [Nat.zero_mul, Nat.le_zero] at hcard
    exact Finset.card_eq_zero.1 hcard
  | succ numberFolds ih =>
    intro cand hcard
    rw [cvFoldLoop]
    by_cases h : cand.card ≤ s
    · simp only [if_pos h]
      exact Finset.subset_empty.1 (cvFoldLoop_final_subset smp s e all Hs numberFolds ∅)
    · simp only [if_neg h]
      rw [symmDiff_of_subset (Hs s cand)]
      refine ih _ ?_
      rw [Finset.card_sdiff (Hs s cand), Hc]
      have : min s cand.card = s := by omega
      rw [this]
      have : (numberFolds + 1) * s = numberFolds * s + s := by ring
      omega

theorem cvExcessSampleSize_eq_zero (trainFractionPerFold : ℚ) (numberFolds N : ℕ)
    (h : cvSampleFraction trainFractionPerFold ≤ 1 / (numberFolds : ℚ)) :
    cvExcessSampleSize trainFractionPerFold numberFolds N = 0 := by
  rw [cvExcessSampleSize, cvExcessSampleFraction]
  rw [max_eq_right (by linarith)]
  simp

theorem cvSampleSize_pos (trainFractionPerFold : ℚ) (numberFolds N : ℕ) :
    1 ≤ cvSampleSize trainFractionPerFold numberFolds N := by
  rw [cvSampleSize]
  have h1 : (1 : ℚ) ≤ max ((1 + 1 / 100000000) *
      (cvSampleFraction trainFractionPerFold -
        cvExcessSampleFraction trainFractionPerFold numberFolds) * (N : ℚ)) 1 :=
    le_max_right _ _
  have h2 : (1 : ℤ) ≤ ⌊max ((1 + 1 / 100000000) *
      (cvSampleFraction trainFractionPerFold -
        cvExcessSampleFraction trainFractionPerFold numberFolds) * (N : ℚ)) 1⌋ :=
    Int.le_floor.2 (by exact_mod_cast h1)
  omega

theorem cvSampleFraction_symm (trainFractionPerFold : ℚ) :
    cvSampleFraction (1 - trainFractionPerFold) = cvSampleFraction trainFractionPerFold := by
  rw [cvSampleFraction, cvSampleFraction, sub_sub_cancel]
  exact min_comm _ _

theorem cvSampleSize_symm (trainFractionPerFold : ℚ) (numberFolds N : ℕ) :
    cvSampleSize (1 - trainFractionPerFold) numberFolds N =
      cvSampleSize trainFractionPerFold numberFolds N := by
  rw [cvSampleSize, cvSampleSize, cvExcessSampleFraction, cvExcessSampleFraction,
    cvSampleFraction_symm]

/-! ## C5: the fold-construction mechanics -/

/-- C5, amended.  For every sampler satisfying the sampler contract and
every successful call (`numberFolds ≤ allTrainingRowMask.card`), writing
`s`/`e` for the computed sample and excess sample sizes and `L` for the
fold states of the loop:
(a) each fold samples from a shrinking remaining mask: the remaining mask
of fold `i` is the candidate mask minus the base samples of all earlier
folds (so the base samples are drawn without replacement);
(b) each fold's base sample is a subset of its remaining mask, of size
`min s remaining.card`, where `s` is computed from the smaller of the train
and test shares (`cvSampleFraction = min r (1-r)`, conjunct (d));
(c) as soon as no more than one fold's share remains, that fold takes the
whole remainder and every later fold's remaining mask is empty — the
remainder is assigned wholesale at the first such fold, which is the last
fold whenever the shares cover the candidate mask, but not the last fold in
general as the claim states;
(d) the computed sample size is symmetric in train/test fraction;
(e) the train/test roles of the two returned lists are swapped at the end
exactly when the train fraction per fold is below one half — not above, as
the claim states: for `r < 1/2` the sampled masks are returned as the
training masks, otherwise as the testing masks. -/
theorem C5_foldConstruction (smp : ℕ → Finset ℕ → Finset ℕ) (numberFolds : ℕ)
    (trainFractionPerFold : ℚ) (allTrainingRowMask : Finset ℕ)
    (Hs : ∀ k m2, smp k m2 ⊆ m2) (Hc : ∀ k m2, (smp k m2).card = min k m2.card)
    (hF : numberFolds ≤ allTrainingRowMask.card) :
    ∃ s e L,
      s = cvSampleSize trainFractionPerFold numberFolds allTrainingRowMask.card ∧
      e = cvExcessSampleSize trainFractionPerFold numberFolds allTrainingRowMask.card ∧
      L = (cvFoldLoop smp s e allTrainingRowMask numberFolds allTrainingRowMask).1 ∧
      (∀ i, i < numberFolds →
        (L.getD i ⟨∅, ∅, ∅⟩).remaining =
          allTrainingRowMask \ unionList ((L.take i).map CvFold.base)) ∧
      (∀ f ∈ L, f.base ⊆ f.remaining ∧ f.base.card = min s f.remaining.card) ∧
      (∀ i, i < numberFolds → (L.getD i ⟨∅, ∅, ∅⟩).remaining.card ≤ s →
        (L.getD i ⟨∅, ∅, ∅⟩).base = (L.getD i ⟨∅, ∅, ∅⟩).remaining ∧
        ∀ j, j < numberFolds → i < j → (L.getD j ⟨∅, ∅, ∅⟩).remaining = ∅) ∧
      (cvSampleFraction trainFractionPerFold =
        min trainFractionPerFold (1 - trainFractionPerFold) ∧
        cvSampleSize (1 - trainFractionPerFold) numberFolds allTrainingRowMask.card = s) ∧
      (stratifiedCrossValidationRowMasks smp numberFolds trainFractionPerFold
          allTrainingRowMask =
        if trainFractionPerFold < 1 / 2 then
          some (L.map CvFold.test,
            complementRowMasks (L.map CvFold.test) allTrainingRowMask)
        else
          some (complementRowMasks (L.map CvFold.test) allTrainingRowMask,
            L.map CvFold.test)) := by
  refine ⟨_, _, _, rfl, rfl, rfl, ?_, ?_, ?_, ⟨rfl, cvSampleSize_symm _ _ _⟩, ?_⟩
  · intro i hi
    exact cvFoldLoop_remaining_closed smp _ _ _ Hs numberFolds _ i hi
  · intro f hf
    exact ⟨cvFoldLoop_base_subset smp _ _ _ Hs numberFolds _ f hf,
      cvFoldLoop_base_card smp _ _ _ Hc numberFolds _ f hf⟩
  · intro i hi
    exact cvFoldLoop_wholesale smp _ _ _ numberFolds _ i hi
  · rw [stratifiedCrossValidationRowMasks]
    rw [if_neg (by omega)]

/-! ## C6: the fold-mask invariants -/

/-- C6, amended.  The claim's invariants do not hold for every successful
call (see the counterexample); they hold whenever the call samples the test
share with no excess sampling and every row is assigned.  Concretely: for a
sampler satisfying the sampler contract, a successful call
(`numberFolds ≤ card`), a train fraction of at least one half (so the
sampled masks are the returned test masks), a sample fraction of at most
one fold's share (`cvSampleFraction r ≤ 1/numberFolds`, so no excess
sampler exists), and enough sampling to cover every row
(`card ≤ numberFolds * sampleSize`): the returned per-fold test masks are
pairwise disjoint, each fold's training mask is the complement of its test
mask inside the candidate mask (so train and test are disjoint and their
union is contained in — indeed equals — the candidate mask), and the union
of the test masks covers the candidate mask exactly once (a disjoint
union). -/
theorem C6_foldMaskInvariants (smp : ℕ → Finset ℕ → Finset ℕ) (numberFolds : ℕ)
    (trainFractionPerFold : ℚ) (allTrainingRowMask : Finset ℕ)
    (Hs : ∀ k m2, smp k m2 ⊆ m2) (Hc : ∀ k m2, (smp k m2).card = min k m2.card)
    (hF : numberFolds ≤ allTrainingRowMask.card)
    (hr : 1 / 2 ≤ trainFractionPerFold)
    (hex : cvSampleFraction trainFractionPerFold ≤ 1 / (numberFolds : ℚ))
    (hcov : allTrainingRowMask.card ≤
      numberFolds *
        cvSampleSize trainFractionPerFold numberFolds allTrainingRowMask.card) :
    ∃ trainingRowMasks testingRowMasks,
      stratifiedCrossValidationRowMasks smp numberFolds trainFractionPerFold
        allTrainingRowMask = some (trainingRowMasks, testingRowMasks) ∧
      testingRowMasks.length = numberFolds ∧
      trainingRowMasks = complementRowMasks testingRowMasks allTrainingRowMask ∧
      List.Pairwise (fun a b => a ∩ b = ∅) testingRowMasks ∧
      (∀ t ∈ testingRowMasks, t ⊆ allTrainingRowMask ∧
        symmDiff allTrainingRowMask t ∩ t = ∅ ∧
        symmDiff allTrainingRowMask t ∪ t = allTrainingRowMask) ∧
      unionList testingRowMasks = allTrainingRowMask := by
  have he0 : cvExcessSampleSize trainFractionPerFold numberFolds
      allTrainingRowMask.card = 0 := cvExcessSampleSize_eq_zero _ _ _ hex
  have hout : stratifiedCrossValidationRowMasks smp numberFolds trainFractionPerFold
      allTrainingRowMask =
      some (complementRowMasks
        (((cvFoldLoop smp
          (cvSampleSize trainFractionPerFold numberFolds allTrainingRowMask.card) 0
          allTrainingRowMask numberFolds allTrainingRowMask).1).map CvFold.test)
        allTrainingRowMask,
        ((cvFoldLoop smp
          (cvSampleSize trainFractionPerFold numberFolds allTrainingRowMask.card) 0
          allTrainingRowMask numberFolds allTrainingRowMask).1).map CvFold.test) := by
    rw [stratifiedCrossValidationRowMasks]
    rw [if_neg (by omega)]
    rw [he0]
    rw [if_neg (by linarith)]
  refine ⟨_, _, hout, ?_, rfl, ?_, ?_, ?_⟩
  · rw [List.length_map, cvFoldLoop_length]
  · exact cvFoldLoop_pairwise smp _ allTrainingRowMask Hs numberFolds allTrainingRowMask
  · intro t ht
    obtain ⟨f, hf, rfl⟩ := List.mem_map.1 ht
    have hsub : f.test ⊆ allTrainingRowMask :=
      cvFoldLoop_test_subset smp _ allTrainingRowMask Hs numberFolds allTrainingRowMask f hf
    refine ⟨hsub, ?_, ?_⟩
    · rw [symmDiff_of_subset hsub]
      exact Finset.sdiff_inter_self _ _
    · rw [symmDiff_of_subset hsub]
      exact Finset.sdiff_union_of_subset hsub
  · rw [cvFoldLoop_union smp _ allTrainingRowMask Hs numberFolds allTrainingRowMask]
    rw [cvFoldLoop_final_empty smp _ 0 allTrainingRowMask Hs Hc numberFolds
      allTrainingRowMask hcov]
    exact Finset.sdiff_empty

theorem cvSampleSize_35_3_10 : cvSampleSize (3 / 5) 3 10 = 3 := by
  have h1 : cvSampleFraction (3 / 5) = 2 / 5 := by
    rw [cvSampleFraction]
    rw [min_eq_right (by norm_num)]
    norm_num
  have h2 : cvExcessSampleFraction (3 / 5) 3 = 1 / 15 := by
    rw [cvExcessSampleFraction, h1]
    rw [max_eq_left (by norm_num)]
    norm_num
  rw [cvSampleSize, h1, h2]
  push_cast
  have h3 : max ((1 + 1 / 100000000 : ℚ) * (2 / 5 - 1 / 15) * 10) 1 =
      1000000010 / 300000000 := by
    rw [max_eq_left (by norm_num)]
    norm_num
  rw [h3]
  have h4 : ⌊(1000000010 : ℚ) / 300000000⌋ = 3 := by
    rw [Int.floor_eq_iff] <;> norm_num
  rw [h4]
  rfl

theorem cvExcessSampleSize_35_3_10 : cvExcessSampleSize (3 / 5) 3 10 = 1 := by
  have h1 : cvSampleFraction (3 / 5) = 2 / 5 := by
    rw [cvSampleFraction]
    rw [min_eq_right (by norm_num)]
    norm_num
  have h2 : cvExcessSampleFraction (3 / 5) 3 = 1 / 15 := by
    rw [cvExcessSampleFraction, h1]
    rw [max_eq_left (by norm_num)]
    norm_num
  rw [cvExcessSampleSize, h2]
  push_cast
  have h3 : ⌈(1 / 15 : ℚ) * 10⌉ = 1 := by
    rw [Int.ceil_eq_iff] <;> norm_num
  rw [h3]
  rfl

theorem cvSampleSize_910_5_6 : cvSampleSize (9 / 10) 5 6 = 1 := by
  have h1 : cvSampleFraction (9 / 10) = 1 / 10 := by
    rw [cvSampleFraction]
    rw [min_eq_right (by norm_num)]
    norm_num
  have h2 : cvExcessSampleFraction (9 / 10) 5 = 0 := by
    rw [cvExcessSampleFraction, h1]
    rw [max_eq_right (by norm_num)]
  rw [cvSampleSize, h1, h2]
  push_cast
  have h3 : max ((1 + 1 / 100000000 : ℚ) * (1 / 10 - 0) * 6) 1 = 1 := by
    rw [max_eq_right (by norm_num)]
  rw [h3]
  rfl

theorem cvExcessSampleSize_910_5_6 : cvExcessSampleSize (9 / 10) 5 6 = 0 := by
  have h1 : cvSampleFraction (9 / 10) = 1 / 10 := by
    rw [cvSampleFraction]
    rw [min_eq_right (by norm_num)]
    norm_num
  have h2 : cvExcessSampleFraction (9 / 10) 5 = 0 := by
    rw [cvExcessSampleFraction, h1]
    rw [max_eq_right (by norm_num)]
  rw [cvExcessSampleSize, h2]
  norm_num

/-- C5, counterexample to the swap direction.  With 5 folds, train fraction
`9/10 > 1/2` and 6 rows, the sampled per-fold masks are the singletons
`{0}..{4}`; the code returns them, unswapped, as the *testing* masks (the
training masks are their complements).  Under the claim — roles swapped
exactly when the train fraction exceeds one half — the returned pair would
be the swapped one, which differs. -/
theorem C5_counterexample :
    stratifiedCrossValidationRowMasks firstK 5 (9 / 10) (Finset.range 6) =
      some ([{1, 2, 3, 4, 5}, {0, 2, 3, 4, 5}, {0, 1, 3, 4, 5}, {0, 1, 2, 4, 5},
        {0, 1, 2, 3, 5}], [{0}, {1}, {2}, {3}, {4}]) ∧
    (1 / 2 : ℚ) < 9 / 10 ∧
    stratifiedCrossValidationRowMasks firstK 5 (9 / 10) (Finset.range 6) ≠
      some ([{0}, {1}, {2}, {3}, {4}],
        [{1, 2, 3, 4, 5}, {0, 2, 3, 4, 5}, {0, 1, 3, 4, 5}, {0, 1, 2, 4, 5},
          {0, 1, 2, 3, 5}]) := by
  have hout : stratifiedCrossValidationRowMasks firstK 5 (9 / 10) (Finset.range 6) =
      some ([{1, 2, 3, 4, 5}, {0, 2, 3, 4, 5}, {0, 1, 3, 4, 5}, {0, 1, 2, 4, 5},
        {0, 1, 2, 3, 5}], [{0}, {1}, {2}, {3}, {4}]) := by
    rw [stratifiedCrossValidationRowMasks]
    simp only [Finset.card_range, cvSampleSize_910_5_6, cvExcessSampleSize_910_5_6]
    rw [if_neg (by norm_num), if_neg (by norm_num : ¬ (9 / 10 : ℚ) < 1 / 2)]
    exact congrArg some (Prod.ext (by decide) (by decide))
  refine ⟨hout, by norm_num, ?_⟩
  rw [hout]
  simp only [ne_eq, Option.some.injEq, Prod.mk.injEq, not_and]
  intro h1
  exact absurd h1 (by decide)

/-- C6, counterexample.  With 3 folds, train fraction `3/5` and 10 rows the
call succeeds, but the excess sampler is active
(`min(3/5, 2/5) = 2/5 > 1/3`) and the sample sizes cover only 9 of the 10
rows: the returned test masks share rows (0 and 3 each belong to several
test masks) and their union misses row 9, so the test masks are neither
pairwise disjoint nor a disjoint cover of the candidate mask. -/
theorem C6_counterexample :
    stratifiedCrossValidationRowMasks firstK 3 (3 / 5) (Finset.range 10) =
      some ([{4, 5, 6, 7, 8, 9}, {1, 2, 6, 7, 8, 9}, {1, 2, 3, 4, 5, 9}],
        [{0, 1, 2, 3}, {0, 3, 4, 5}, {0, 6, 7, 8}]) ∧
    ¬ List.Pairwise (fun a b => a ∩ b = ∅)
      ([{0, 1, 2, 3}, {0, 3, 4, 5}, {0, 6, 7, 8}] : List (Finset ℕ)) ∧
    unionList [{0, 1, 2, 3}, {0, 3, 4, 5}, {0, 6, 7, 8}] ≠ Finset.range 10 := by
  refine ⟨?_, by decide, by decide⟩
  rw [stratifiedCrossValidationRowMasks]
  simp only [Finset.card_range, cvSampleSize_35_3_10, cvExcessSampleSize_35_3_10]
  rw [if_neg (by norm_num), if_neg (by norm_num : ¬ (3 / 5 : ℚ) < 1 / 2)]
  exact congrArg some (Prod.ext (by decide) (by decide))

theorem cvSampleSize_23_3_9 : cvSampleSize (2 / 3) 3 9 = 3 := by
  have h1 : cvSampleFraction (2 / 3) = 1 / 3 := by
    rw [cvSampleFraction]
    rw [min_eq_right (by norm_num)]
    norm_num
  have h2 : cvExcessSampleFraction (2 / 3) 3 = 0 := by
    rw [cvExcessSampleFraction, h1]
    push_cast
    norm_num
  rw [cvSampleSize, h1, h2]
  push_cast
  have h3 : max ((1 + 1 / 100000000 : ℚ) * (1 / 3 - 0) * 9) 1 =
      300000003 / 100000000 := by
    rw [max_eq_left (by norm_num)]
    norm_num
  rw [h3]
  have h4 : ⌊(300000003 : ℚ) / 100000000⌋ = 3 := by
    rw [Int.floor_eq_iff] <;> norm_num
  rw [h4]
  rfl

/-- Witness for C5 at a concrete input: the deterministic sampler `firstK`,
2 folds, train fraction `1/2`, candidate mask `{0,1,2,3}`. -/
theorem C5_foldConstruction_witness :
    (∀ k m2, firstK k m2 ⊆ m2) ∧
    (∀ k m2, (firstK k m2).card = min k m2.card) ∧
    2 ≤ (Finset.range 4).card ∧
    ∃ s e L,
      s = cvSampleSize (1 / 2) 2 (Finset.range 4).card ∧
      e = cvExcessSampleSize (1 / 2) 2 (Finset.range 4).card ∧
      L = (cvFoldLoop firstK s e (Finset.range 4) 2 (Finset.range 4)).1 ∧
      (∀ i, i < 2 →
        (L.getD i ⟨∅, ∅, ∅⟩).remaining =
          Finset.range 4 \ unionList ((L.take i).map CvFold.base)) ∧
      (∀ f ∈ L, f.base ⊆ f.remaining ∧ f.base.card = min s f.remaining.card) ∧
      (∀ i, i < 2 → (L.getD i ⟨∅, ∅, ∅⟩).remaining.card ≤ s →
        (L.getD i ⟨∅, ∅, ∅⟩).base = (L.getD i ⟨∅, ∅, ∅⟩).remaining ∧
        ∀ j, j < 2 → i < j → (L.getD j ⟨∅, ∅, ∅⟩).remaining = ∅) ∧
      (cvSampleFraction (1 / 2) = min (1 / 2) (1 - 1 / 2) ∧
        cvSampleSize (1 - 1 / 2) 2 (Finset.range 4).card = s) ∧
      (stratifiedCrossValidationRowMasks firstK 2 (1 / 2) (Finset.range 4) =
        if (1 / 2 : ℚ) < 1 / 2 then
          some (L.map CvFold.test,
            complementRowMasks (L.map CvFold.test) (Finset.range 4))
        else
          some (complementRowMasks (L.map CvFold.test) (Finset.range 4),
            L.map CvFold.test)) :=
  ⟨firstK_subset, firstK_card, by decide,
    C5_foldConstruction firstK 2 (1 / 2) (Finset.range 4) firstK_subset firstK_card
      (by decide)⟩

/-- Witness for C6 at a concrete input: the deterministic sampler `firstK`,
3 folds, train fraction `2/3` (so no excess sampling) and candidate mask
`{0,…,8}`, which the three folds of size 3 cover exactly. -/
theorem C6_foldMaskInvariants_witness :
    (∀ k m2, firstK k m2 ⊆ m2) ∧
    (∀ k m2, (firstK k m2).card = min k m2.card) ∧
    3 ≤ (Finset.range 9).card ∧
    (1 / 2 : ℚ) ≤ 2 / 3 ∧
    cvSampleFraction (2 / 3) ≤ 1 / ((3 : ℕ) : ℚ) ∧
    (Finset.range 9).card ≤ 3 * cvSampleSize (2 / 3) 3 (Finset.range 9).card ∧
    ∃ trainingRowMasks testingRowMasks,
      stratifiedCrossValidationRowMasks firstK 3 (2 / 3) (Finset.range 9) =
        some (trainingRowMasks, testingRowMasks) ∧
      testingRowMasks.length = 3 ∧
      trainingRowMasks = complementRowMasks testingRowMasks (Finset.range 9) ∧
      List.Pairwise (fun a b => a ∩ b = ∅) testingRowMasks ∧
      (∀ t ∈ testingRowMasks, t ⊆ Finset.range 9 ∧
        symmDiff (Finset.range 9) t ∩ t = ∅ ∧
        symmDiff (Finset.range 9) t ∪ t = Finset.range 9) ∧
      unionList testingRowMasks = Finset.range 9 :=
  ⟨firstK_subset, firstK_card, by decide, by norm_num,
    by rw [cvSampleFraction, min_eq_right (by norm_num)]; push_cast; norm_num,
    by rw [Finset.card_range, cvSampleSize_23_3_9],
    C6_foldMaskInvariants firstK 3 (2 / 3) (Finset.range 9) firstK_subset firstK_card
      (by decide) (by norm_num)
      (by rw [cvSampleFraction, min_eq_right (by norm_num)]; push_cast; norm_num)
      (by rw [Finset.card_range, cvSampleSize_23_3_9])⟩

end MlCpp
